import Mathlib

/-!
Verification development for the Huffman-coding repository (`huffman.py`).

The Python source is shallowly embedded below:
* `Node` mirrors the `HuffmanEncoding.Node` class (lines 27-35): a frequency,
  an optional character, and optional left/right children.
* The priority queue `MinPQ` imported from `friendsbalt.acs` is not part of
  the repository; it is modelled from the specification (section 4.2 and the
  design notes) as a min-queue keyed by frequency with deterministic,
  first-in-first-out tie-breaking: a sorted list in which a new node is
  inserted after all nodes of smaller-or-equal frequency.
* Python exceptions are modelled by the error type `PyErr`; fallible code
  returns `Except PyErr`.  The repository defines no exception classes of its
  own, so the constructors mirror the Python built-in failures that its code
  can actually reach.
* Python strings are modelled as `List Char`.
-/

/-- Errors the embedded code can signal.  `keyError c` mirrors the `KeyError`
raised by `self.codes[char]` (line 73) for a missing key `c`;
`attributeError` mirrors the `AttributeError` raised when the decoder steps
to a `None` child and then calls `node.is_leaf()` (lines 98-101);
`typeErrorNotCallable` mirrors the `TypeError` raised when a non-callable
attribute is called; `recursionError` mirrors the unbounded recursion of
`_build_dictionary` when it is handed a `None` node (lines 118-119 restart it
at the root, revisiting the same `None` child forever); `pqEmptyDelMin`
models `del_min()` on an empty priority queue (line 60; the queue class is
external to the repository, so the exact exception it raises is modelled
from the spec as a plain failure of the queue itself). -/
inductive PyErr where
  | keyError (c : Char)
  | attributeError
  | typeErrorNotCallable
  | recursionError
  | pqEmptyDelMin
  deriving DecidableEq, Repr

/-- Mirror of class `HuffmanEncoding.Node` (lines 27-32): `freq`, an optional
`char`, and optional `left`/`right` children, in the order of `__init__`. -/
inductive Node where
  | mk (freq : Nat) (char : Option Char) (left : Option Node) (right : Option Node)
  deriving Repr

/-- Projection for the `freq` field of a `Node`. -/
def Node.freq : Node → Nat
  | .mk f _ _ _ => f

/-- Projection for the `char` field of a `Node`. -/
def Node.char : Node → Option Char
  | .mk _ c _ _ => c

/-- Projection for the `left` field of a `Node`. -/
def Node.left : Node → Option Node
  | .mk _ _ l _ => l

/-- Projection for the `right` field of a `Node`. -/
def Node.right : Node → Option Node
  | .mk _ _ _ r => r

/-- Mirror of `Node.is_leaf` (lines 34-35): `self.char is not None`. -/
def Node.is_leaf (n : Node) : Bool :=
  n.char.isSome

/-- Modelled from the spec: the repository imports `MinPQ` from
`friendsbalt.acs`, which is not part of the source tree.  Following section
4.2 and design note "Priority queue tie-breaking" (a heap keyed by
(frequency, insertion-sequence-number)), the queue is modelled as a list
sorted by frequency, and `insert` places the new node after every node of
smaller-or-equal frequency, so ties are broken first-in-first-out.
`del_min` is taking the head of the list. -/
def MinPQ.insert (n : Node) : List Node → List Node
  | [] => [n]
  | m :: rest => if m.freq ≤ n.freq then m :: MinPQ.insert n rest else n :: m :: rest

/-- Mirror of the character-frequency count of `_build_huffman_tree`
(lines 40-45): a Python dict built by a single pass, so entries are in
first-occurrence order and repeated characters bump their existing entry. -/
def freq_table_step : List (Char × Nat) → Char → List (Char × Nat)
  | [], c => [(c, 1)]
  | (k, v) :: rest, c =>
      if k = c then (k, v + 1) :: rest else (k, v) :: freq_table_step rest c

/-- The frequency table of lines 40-45 for a whole source text. -/
def freq_table (src : List Char) : List (Char × Nat) :=
  src.foldl freq_table_step []

/-- Mirror of lines 47-50: one leaf `Node(freq, char)` per frequency-table
entry, inserted into the priority queue in table order. -/
def initial_queue (src : List Char) : List Node :=
  (freq_table src).foldl
    (fun q cf => MinPQ.insert (Node.mk cf.2 (some cf.1) none none) q) []

/-- Inserting into the modelled queue grows it by exactly one node. -/
theorem MinPQ.insert_length (n : Node) (l : List Node) :
    (MinPQ.insert n l).length = l.length + 1 := by
  induction l with
  | nil => rfl
  | cons m rest ih =>
      by_cases hc : m.freq ≤ n.freq <;> simp [MinPQ.insert, hc, ih]

/-- Mirror of the merge loop and final extraction of `_build_huffman_tree`
(lines 52-60): while the queue holds more than one node, `del_min` twice
(`left` then `right`), insert `Node(left.freq + right.freq, left=left,
right=right)`; at the end `del_min` once more for the root.  On an empty
queue that final `del_min` is the queue's own empty-delete failure. -/
def merge_loop : List Node → Except PyErr Node
  | [] => .error .pqEmptyDelMin
  | [t] => .ok t
  | l :: r :: rest =>
      merge_loop (MinPQ.insert (Node.mk (l.freq + r.freq) none (some l) (some r)) rest)
  termination_by q => q.length
  decreasing_by
    simp only [List.length_cons, MinPQ.insert_length]
    omega

/-- Lines 37-60 of the source: build the Huffman tree of a source text. -/
def build_huffman_tree (src : List Char) : Except PyErr Node :=
  merge_loop (initial_queue src)

/-- Mirror of `_build_dictionary` (lines 106-127) started at an actual node.
A leaf (a node whose `char` is not `None`) maps its character to the
accumulated prefix `pfx`; an internal node combines the dictionaries of its
children with `'0'`/`'1'` appended to the prefix.  When an expected child is
`None`, the Python code calls `_build_dictionary(None, ...)`, which lines
118-119 restart at the root; the walk then reaches the same `None` child
again with a longer prefix, recursing forever, which Python surfaces as a
`RecursionError`. -/
def build_dictionary : Node → List Char → Except PyErr (List (Char × List Char))
  | .mk _ (some c) _ _, pfx => .ok [(c, pfx)]
  | .mk _ none (some l) (some r), pfx => do
      let dl ← build_dictionary l (pfx ++ ['0'])
      let dr ← build_dictionary r (pfx ++ ['1'])
      .ok (dl ++ dr)
  | .mk _ none _ _, _ => .error .recursionError

/-- Line 63 composed with lines 37-60: the code table of a source text. -/
def codes_of_source (src : List Char) : Except PyErr (List (Char × List Char)) :=
  (build_huffman_tree src).bind (fun t => build_dictionary t [])

/-- Python dict lookup on the association list produced by
`_build_dictionary`: later entries overwrite earlier ones, exactly as
`dict.update` does on lines 125-126. -/
def dictGet (d : List (Char × List Char)) (c : Char) : Option (List Char) :=
  d.foldl (fun acc kv => if kv.1 = c then some kv.2 else acc) none

/-- The generator-join of line 73: look each source character up in the code
table and concatenate; a missing character raises `KeyError(char)`. -/
def encode_chars (codes : List (Char × List Char)) :
    List Char → Except PyErr (List Char)
  | [] => .ok []
  | c :: rest =>
      match dictGet codes c with
      | none => .error (.keyError c)
      | some w => (encode_chars codes rest).map (fun e => w ++ e)

/-- Mirror of method `encoding` (lines 65-74): empty result when
`source_text` is `None`, otherwise the join of the characters' codes. -/
def encoding (codes : List (Char × List Char)) :
    Option (List Char) → Except PyErr (List Char)
  | none => .ok []
  | some src => encode_chars codes src

/-- Mirror of the loop of `_decode_encoded_text` (lines 94-104): the cursor
starts at `root`; for each character of the stream it moves to the left
child when the character equals `'0'` and to the right child otherwise; if
the new node is `None`, the `node.is_leaf()` call raises `AttributeError`;
if it is a leaf its character is emitted and the cursor restarts at the
root. -/
def decode_loop (root : Node) : Node → List Char → Except PyErr (List Char)
  | _, [] => .ok []
  | node, bit :: rest =>
      match (if bit = '0' then node.left else node.right) with
      | none => .error .attributeError
      | some child =>
          match child.char with
          | some c => (decode_loop root root rest).map (fun t => c :: t)
          | none => decode_loop root child rest

/-- Mirror of `_decode_encoded_text` (lines 92-104). -/
def decode_encoded_text (encoded_text : List Char) (root : Node) :
    Except PyErr (List Char) :=
  decode_loop root root encoded_text

/-- The full encode/decode pipeline of the two construction modes: build the
tree and dictionary from `src` (lines 19-21), encode (lines 65-74), then
hand the stream and root to the decoding constructor (lines 22-25). -/
def round_trip (src : List Char) : Except PyErr (List Char) := do
  let t ← build_huffman_tree src
  let cds ← build_dictionary t []
  let enc ← encoding cds (some src)
  decode_encoded_text enc t

/-- Build a tree from `src` and decode the stream `enc` against it:
the scenario of handing a (possibly truncated) stream back to the decoder. -/
def decode_after_build (src enc : List Char) : Except PyErr (List Char) := do
  let t ← build_huffman_tree src
  decode_encoded_text enc t

/-- Check of the node invariant stated by the data model: a node is either a
leaf (character present, no children) or internal (no character, both
children present, frequency equal to the sum of the children's). -/
def nodeOk : Node → Bool
  | .mk _ (some _) none none => true
  | .mk f none (some l) (some r) => f == l.freq + r.freq
  | _ => false

/-- `nodeOk` holding at every node of a tree. -/
def everyNodeOk : Node → Bool
  | .mk f c l r =>
      nodeOk (.mk f c l r) &&
      (match l with | some x => everyNodeOk x | none => true) &&
      (match r with | some x => everyNodeOk x | none => true)

/-- Characters at the leaves of a tree, in the left-to-right order in which
`_build_dictionary` records them (a node with a character counts as a leaf,
mirroring `is_leaf`). -/
def treeChars : Node → List Char
  | .mk _ (some c) _ _ => [c]
  | .mk _ none l r =>
      (match l with | some x => treeChars x | none => []) ++
      (match r with | some x => treeChars x | none => [])

/-- Walk a path of stream characters down a tree: `'0'` selects the left
child and any other character the right child, exactly as the decoder's
cursor moves. -/
def walkTo : Node → List Char → Option Node
  | t, [] => some t
  | t, b :: bs =>
      match (if b = '0' then t.left else t.right) with
      | none => none
      | some child => walkTo child bs

/-- All leaf characters of the trees in a queue. -/
def queueChars (q : List Node) : List Char :=
  (q.map treeChars).flatten

/-- The queue is sorted by frequency (the `MinPQ` representation
invariant). -/
def SortedQ (q : List Node) : Prop :=
  q.Pairwise (fun u v => u.freq ≤ v.freq)

/-- `IsBefore x y l`: `x` occurs strictly before some occurrence of `y` in
the list `l`. -/
def IsBefore (x y : Node) : List Node → Prop
  | [] => False
  | a :: l => (x = a ∧ y ∈ l) ∨ IsBefore x y l

/-- Instance-attribute state of a `HuffmanEncoding` object after `__init__`
(lines 14-25): the four names assigned on `self`. -/
structure HuffObj where
  root_node : Option Node
  encoded_text : Option (List Char)
  source_text_val : Option (List Char)
  codes : List (Char × List Char)

/-- Mirror of `__init__` in the from-source mode (lines 14-21 and 63):
build the tree and the dictionary; `self.source_text` is set to `src` at
line 16 and never cleared. -/
def init_from_source (src : List Char) : Except PyErr HuffObj := do
  let t ← build_huffman_tree src
  let cds ← build_dictionary t []
  .ok ⟨some t, none, some src, cds⟩

/-- The kinds of value `obj.source_text` can resolve to: `None`, a string,
or the class method `source_text` of lines 76-82. -/
inductive PyAttr where
  | vNone
  | vStr (s : List Char)
  | vMethod

/-- Python resolves `obj.source_text` in the instance `__dict__` before the
class namespace, and `__init__` line 16 unconditionally stores a value under
the key `source_text`; the lookup therefore always yields that stored value
(a string or `None`) and can never reach the method defined at lines
76-82. -/
def getattr_source_text (o : HuffObj) : PyAttr :=
  match o.source_text_val with
  | none => .vNone
  | some s => .vStr s

/-- Calling the resolved value of `obj.source_text()`: a method would run
(returning `self.source_text`), but a string or `None` is not callable and
raises `TypeError`. -/
def call_source_text (o : HuffObj) : Except PyErr (Option (List Char)) :=
  match getattr_source_text o with
  | .vMethod => .ok o.source_text_val
  | .vNone => .error .typeErrorNotCallable
  | .vStr _ => .error .typeErrorNotCallable

unseal merge_loop

/-! Inversion helpers for the node invariant. -/

/-- Unfolding of `everyNodeOk` at a constructor. -/
theorem everyNodeOk_inv {f : Nat} {c : Option Char} {l r : Option Node}
    (h : everyNodeOk (.mk f c l r) = true) :
    nodeOk (.mk f c l r) = true ∧
    (∀ x, l = some x → everyNodeOk x = true) ∧
    (∀ x, r = some x → everyNodeOk x = true) := by
  rw [everyNodeOk.eq_def] at h
  simp only [Bool.and_eq_true] at h
  refine ⟨h.1.1, ?_, ?_⟩
  · intro x hx; cases l with
    | none => cases hx
    | some y => cases hx; exact h.1.2
  · intro x hx; cases r with
    | none => cases hx
    | some y => cases hx; exact h.2

/-- An internal ok node has both children, and its frequency is their sum. -/
theorem nodeOk_internal {f : Nat} {l r : Option Node}
    (h : nodeOk (.mk f none l r) = true) :
    ∃ x y, l = some x ∧ r = some y ∧ f = x.freq + y.freq := by
  cases l with
  | none => cases r <;> simp [nodeOk] at h
  | some x =>
      cases r with
      | none => simp [nodeOk] at h
      | some y =>
          refine ⟨x, y, rfl, rfl, ?_⟩
          simpa [nodeOk] using h

/-- A leaf ok node has no children. -/
theorem nodeOk_leaf {f : Nat} {c : Char} {l r : Option Node}
    (h : nodeOk (.mk f (some c) l r) = true) : l = none ∧ r = none := by
  cases l <;> cases r <;> simp [nodeOk] at h ⊢

/-- A wellformed node whose `char` is `none` has wellformed children whose
frequencies sum to its own. -/
theorem everyNodeOk_internal {t : Node} (hok : everyNodeOk t = true)
    (hc : t.char = none) :
    ∃ x y, t.left = some x ∧ t.right = some y ∧ t.freq = x.freq + y.freq ∧
      everyNodeOk x = true ∧ everyNodeOk y = true := by
  obtain ⟨f, c, l, r⟩ := t
  cases hc
  obtain ⟨hn, hl, hr⟩ := everyNodeOk_inv hok
  obtain ⟨x, y, hx, hy, hf⟩ := nodeOk_internal hn
  exact ⟨x, y, hx, hy, hf, hl x hx, hr y hy⟩

/-! ### Claim C2: the single-symbol boundary -/

/-- C2. For the single-symbol source "aaaa" the code actually assigns `'a'`
the empty code, the encoded stream is empty (not four equal bits), and the
round trip returns the empty string instead of "aaaa": the claimed
behaviour fails on the code. -/
theorem C2_single_symbol_empty_code :
    codes_of_source ['a', 'a', 'a', 'a'] = .ok [('a', ([] : List Char))] ∧
    round_trip ['a', 'a', 'a', 'a'] = .ok [] ∧
    round_trip ['a', 'a', 'a', 'a'] ≠ .ok ['a', 'a', 'a', 'a'] := by
  refine ⟨rfl, rfl, ?_⟩
  intro h
  rw [show round_trip ['a', 'a', 'a', 'a'] = .ok [] from rfl] at h
  simp at h

/-! ### Claim C4: empty input -/

/-- C4 counterexample. Constructing from the empty source text does not
raise any repository-defined `EmptyInputError` (the repository defines no
exception class at all): the failure is `del_min()` on the empty priority
queue at line 60, an error of the external queue itself. -/
theorem C4_empty_source_error_is_queue_error :
    build_huffman_tree [] = .error .pqEmptyDelMin := rfl

/-- C4 amended. Whenever the frequency table is empty, building the tree
fails with the queue's empty-delete error instead of returning a degenerate
tree; no `EmptyInputError` exists to be raised. -/
theorem C4_empty_freq_table_fails (src : List Char)
    (h : freq_table src = []) :
    build_huffman_tree src = .error .pqEmptyDelMin := by
  unfold build_huffman_tree initial_queue
  rw [h]
  rfl

/-- C4 witness: the empty source text has an empty frequency table and
building from it fails with the queue error. -/
theorem C4_empty_freq_table_fails_witness :
    freq_table [] = [] ∧ build_huffman_tree [] = .error .pqEmptyDelMin :=
  ⟨rfl, C4_empty_freq_table_fails [] rfl⟩

/-! ### Claim C5 counterexample: truncated streams decode silently -/

/-- C5 counterexample. For the source "aabc" the full stream "001011"
decodes back to "aabc", but the truncated stream "00101" (its essential
last bit removed, so it ends mid-code) decodes to `.ok "aab"`: the decoder
silently discards the incomplete trailing code instead of raising any
`MalformedStreamError`. -/
theorem C5_truncated_stream_decodes_silently :
    decode_after_build ['a', 'a', 'b', 'c'] ['0', '0', '1', '0', '1', '1'] =
      .ok ['a', 'a', 'b', 'c'] ∧
    decode_after_build ['a', 'a', 'b', 'c'] ['0', '0', '1', '0', '1'] =
      .ok ['a', 'a', 'b'] :=
  ⟨rfl, rfl⟩

/-! ### Claim C9: the shadowed `source_text` method -/

/-- C9. After construction from source, the attribute `source_text` resolves
to the string stored by `__init__` (line 16), which shadows the method of
lines 76-82; invoking `obj.source_text()` therefore raises `TypeError`
('str' object is not callable) instead of returning the source text. -/
theorem C9_source_text_shadowed :
    (init_from_source ['a', 'b']).bind call_source_text =
      .error .typeErrorNotCallable ∧
    ∃ o, init_from_source ['a', 'b'] = .ok o ∧
      getattr_source_text o = .vStr ['a', 'b'] :=
  ⟨rfl, _, rfl, rfl⟩

/-! ### Claim C10: the decoder does not validate stream characters -/

/-- C10. The decoder's branch on each stream character only tests equality
with `'0'` (line 97): replacing every character that is not `'0'` by `'1'`
leaves the whole decoding result unchanged, so a stream containing `'2'` or
`'x'` decodes exactly as if those characters were `'1'`. -/
theorem C10_decoder_treats_non_zero_as_one (root node : Node) (s : List Char) :
    decode_loop root node s =
      decode_loop root node (s.map (fun c => if c = '0' then '0' else '1')) := by
  have unfold1 : ∀ (n : Node) (b : Char) (rest : List Char),
      decode_loop root n (b :: rest) =
        match (if b = '0' then n.left else n.right) with
        | none => .error .attributeError
        | some child =>
            match child.char with
            | some c => (decode_loop root root rest).map (fun t => c :: t)
            | none => decode_loop root child rest :=
    fun _ _ _ => rfl
  induction s generalizing node with
  | nil => rfl
  | cons b rest ih =>
      have hsel : (if (if b = '0' then '0' else '1') = ('0' : Char)
            then node.left else node.right) =
          (if b = '0' then node.left else node.right) := by
        by_cases hb : b = '0' <;> simp [hb]
      rw [List.map_cons, unfold1, unfold1, hsel]
      cases hch : (if b = '0' then node.left else node.right) with
      | none => rfl
      | some child =>
          dsimp only
          cases hcc : child.char with
          | some c => rw [ih root]
          | none => exact ih child

/-! ### Claim C6: encoding a symbol missing from the code table -/

/-- C6. If some character of the source text has no entry in the code table,
`encoding` raises the dictionary's missing-key error for such a character
(the first one), producing no output at all: the explicit missing-symbol
failure, not a silent skip or placeholder. -/
theorem C6_missing_symbol_raises (codes : List (Char × List Char))
    (src : List Char) (h : ∃ c ∈ src, dictGet codes c = none) :
    ∃ c ∈ src, dictGet codes c = none ∧
      encoding codes (some src) = .error (.keyError c) := by
  induction src with
  | nil => simp at h
  | cons a rest ih =>
      by_cases ha : dictGet codes a = none
      · exact ⟨a, List.mem_cons_self a rest, ha, by
          simp [encoding, encode_chars, ha]⟩
      · obtain ⟨c, hc, hcn⟩ := h
        have hcr : c ∈ rest := by
          rcases List.mem_cons.mp hc with h1 | h1
          · exact absurd (h1 ▸ hcn) ha
          · exact h1
        obtain ⟨c', hc', hcn', henc⟩ := ih ⟨c, hcr, hcn⟩
        refine ⟨c', List.mem_cons_of_mem a hc', hcn', ?_⟩
        obtain ⟨w, hw⟩ := Option.ne_none_iff_exists'.mp ha
        simp only [encoding, encode_chars, hw]
        simp only [encoding] at henc
        rw [henc]
        rfl

/-- C6 witness: with an empty code table, encoding "a" raises the missing-key
error for `'a'`. -/
theorem C6_missing_symbol_raises_witness :
    (∃ c ∈ ['a'], dictGet [] c = none) ∧
    ∃ c ∈ ['a'], dictGet [] c = none ∧
      encoding [] (some ['a']) = .error (.keyError c) :=
  ⟨⟨'a', List.mem_cons_self 'a' [], rfl⟩,
    C6_missing_symbol_raises [] ['a'] ⟨'a', List.mem_cons_self 'a' [], rfl⟩⟩

/-! ### Claim C5, amended part: the decoder never raises on a wellformed
internal tree, whatever the stream -/

/-- On a wellformed tree whose root is internal, the decoding loop succeeds
on every stream, from every wellformed internal cursor. -/
theorem decode_loop_total (t : Node) (hok : everyNodeOk t = true)
    (hc : t.char = none) :
    ∀ (bits : List Char) (cur : Node), everyNodeOk cur = true →
      cur.char = none → ∃ out, decode_loop t cur bits = .ok out := by
  intro bits
  induction bits with
  | nil => exact fun cur _ _ => ⟨[], rfl⟩
  | cons b rest ih =>
      intro cur hcur hcc
      obtain ⟨x, y, hx, hy, _, hxo, hyo⟩ := everyNodeOk_internal hcur hcc
      have hstep : ∀ (child : Node),
          (if b = '0' then cur.left else cur.right) = some child →
          ∃ out, decode_loop t cur (b :: rest) = .ok out := by
        intro child hch
        have hbody : decode_loop t cur (b :: rest) =
            match (if b = '0' then cur.left else cur.right) with
            | none => .error .attributeError
            | some child =>
                match child.char with
                | some c => (decode_loop t t rest).map (fun l => c :: l)
                | none => decode_loop t child rest := rfl
        rw [hbody, hch]
        dsimp only
        cases hcc2 : child.char with
        | some c =>
            obtain ⟨o, ho⟩ := ih t hok hc
            exact ⟨c :: o, by rw [ho]; rfl⟩
        | none =>
            have hcho : everyNodeOk child = true := by
              by_cases hb : b = '0'
              · rw [hb, if_pos rfl, hx] at hch
                cases hch; exact hxo
              · rw [if_neg hb, hy] at hch
                cases hch; exact hyo
            exact ih child hcho hcc2
      by_cases hb : b = '0'
      · exact hstep x (by rw [if_pos hb, hx])
      · exact hstep y (by rw [if_neg hb, hy])

/-- C5 amended. For every tree the builder can produce with at least two
symbols (wellformed, internal root), decoding any stream — truncated or not —
returns `.ok`: no `MalformedStreamError` (or any error) is ever raised; the
symbols of the complete codes are returned and trailing incomplete bits are
silently discarded. -/
theorem C5_decode_total (t : Node) (hok : everyNodeOk t = true)
    (hc : t.char = none) (bits : List Char) :
    ∃ out, decode_encoded_text bits t = .ok out :=
  decode_loop_total t hok hc bits t hok hc

/-- C5 witness: the two-symbol tree of source "ab" is wellformed and decoding
the one-bit (truncated) stream "0" succeeds. -/
theorem C5_decode_total_witness :
    everyNodeOk (Node.mk 2 none (some (Node.mk 1 (some 'a') none none))
        (some (Node.mk 1 (some 'b') none none))) = true ∧
    (Node.mk 2 none (some (Node.mk 1 (some 'a') none none))
        (some (Node.mk 1 (some 'b') none none))).char = none ∧
    ∃ out, decode_encoded_text ['0']
        (Node.mk 2 none (some (Node.mk 1 (some 'a') none none))
          (some (Node.mk 1 (some 'b') none none))) = .ok out :=
  ⟨by rfl, rfl,
    C5_decode_total
      (Node.mk 2 none (some (Node.mk 1 (some 'a') none none))
        (some (Node.mk 1 (some 'b') none none)))
      (by rfl) rfl ['0']⟩

/-! ### Claim C7: structural invariants of built trees -/

/-- Membership in the queue after an insertion. -/
theorem MinPQ.insert_mem {x n : Node} {l : List Node} :
    x ∈ MinPQ.insert n l ↔ x = n ∨ x ∈ l := by
  induction l with
  | nil => simp [MinPQ.insert]
  | cons m rest ih =>
      by_cases hc : m.freq ≤ n.freq
      · simp only [MinPQ.insert, if_pos hc, List.mem_cons, ih]
        try tauto
      · simp only [MinPQ.insert, if_neg hc, List.mem_cons]
        try tauto

/-- Merging two wellformed nodes as in line 56 yields a wellformed node. -/
theorem everyNodeOk_merge {a b : Node} (ha : everyNodeOk a = true)
    (hb : everyNodeOk b = true) :
    everyNodeOk (Node.mk (a.freq + b.freq) none (some a) (some b)) = true := by
  rw [everyNodeOk.eq_def]
  simp [nodeOk, ha, hb]

/-- The merge loop keeps every node of the queue wellformed, so its result is
wellformed. -/
theorem merge_loop_wf :
    ∀ (k : Nat) (q : List Node), q.length ≤ k →
      (∀ n ∈ q, everyNodeOk n = true) → ∀ T, merge_loop q = .ok T →
        everyNodeOk T = true := by
  intro k
  induction k with
  | zero =>
      intro q hlen hall T hT
      match q with
      | [] => exact absurd hT (by simp [merge_loop])
      | a :: l => simp at hlen
  | succ k ih =>
      intro q hlen hall T hT
      match q with
      | [] => exact absurd hT (by simp [merge_loop])
      | [t] =>
          have : T = t := by
            have h1 : merge_loop [t] = .ok t := rfl
            rw [h1] at hT
            cases hT
            rfl
          exact this ▸ hall t (List.mem_singleton_self t)
      | a :: b :: rest =>
          have hstep : merge_loop (a :: b :: rest) =
              merge_loop (MinPQ.insert
                (Node.mk (a.freq + b.freq) none (some a) (some b)) rest) := rfl
          rw [hstep] at hT
          refine ih _ ?_ ?_ T hT
          · rw [MinPQ.insert_length]
            simp only [List.length_cons] at hlen
            omega
          · intro n hn
            rcases MinPQ.insert_mem.mp hn with h1 | h1
            · subst h1
              exact everyNodeOk_merge
                (hall a (List.mem_cons_self a _))
                (hall b (List.mem_cons_of_mem a (List.mem_cons_self b _)))
            · exact hall n
                (List.mem_cons_of_mem a (List.mem_cons_of_mem b h1))

/-- Membership in a queue built by folding insertions of frequency-table
leaves over an accumulator. -/
theorem foldl_insert_mem (l : List (Char × Nat)) :
    ∀ (acc : List Node) (n : Node),
      (n ∈ l.foldl
        (fun q cf => MinPQ.insert (Node.mk cf.2 (some cf.1) none none) q) acc ↔
      n ∈ acc ∨ ∃ cf ∈ l, n = Node.mk cf.2 (some cf.1) none none) := by
  induction l with
  | nil => simp
  | cons cf rest ih =>
      intro acc n
      simp only [List.foldl_cons]
      rw [ih]
      simp [MinPQ.insert_mem]
      tauto

/-- Every node of the initial queue is a frequency-table leaf. -/
theorem initial_queue_mem {src : List Char} {n : Node} :
    n ∈ initial_queue src ↔
      ∃ cf ∈ freq_table src, n = Node.mk cf.2 (some cf.1) none none := by
  unfold initial_queue
  rw [foldl_insert_mem]
  simp

/-- C7. Every tree the builder returns satisfies the node invariant at every
node: a node is exclusively either a leaf (character present, no children)
or internal (no character, both children present) and every internal node's
frequency is the sum of its children's frequencies. -/
theorem C7_tree_invariants (src : List Char) (T : Node)
    (h : build_huffman_tree src = .ok T) : everyNodeOk T = true := by
  refine merge_loop_wf (initial_queue src).length (initial_queue src)
    le_rfl ?_ T h
  intro n hn
  obtain ⟨cf, _, rfl⟩ := initial_queue_mem.mp hn
  rfl

/-- C7 witness: the tree built from "ab" satisfies the invariant. -/
theorem C7_tree_invariants_witness :
    build_huffman_tree ['a', 'b'] = .ok (Node.mk 2 none
      (some (Node.mk 1 (some 'a') none none))
      (some (Node.mk 1 (some 'b') none none))) ∧
    everyNodeOk (Node.mk 2 none
      (some (Node.mk 1 (some 'a') none none))
      (some (Node.mk 1 (some 'b') none none))) = true :=
  ⟨rfl, C7_tree_invariants ['a', 'b'] _ rfl⟩

/-! ### Leaf-character bookkeeping for built trees -/

/-- The characters of a merged node are those of its two children. -/
theorem treeChars_merge (a b : Node) :
    treeChars (Node.mk (a.freq + b.freq) none (some a) (some b)) =
      treeChars a ++ treeChars b := by
  rw [treeChars.eq_def]

/-- Inserting into the queue permutes the concatenated leaf characters. -/
theorem queueChars_insert (n : Node) (q : List Node) :
    (queueChars (MinPQ.insert n q)).Perm (treeChars n ++ queueChars q) := by
  induction q with
  | nil => simp [queueChars, MinPQ.insert]
  | cons m rest ih =>
      by_cases hc : m.freq ≤ n.freq
      · simp only [MinPQ.insert, if_pos hc, queueChars, List.map_cons,
          List.flatten_cons] at ih ⊢
        have h1 : (treeChars m ++
              (List.map treeChars (MinPQ.insert n rest)).flatten).Perm
            (treeChars m ++ (treeChars n ++ (List.map treeChars rest).flatten)) :=
          List.Perm.append_left _ ih
        refine h1.trans ?_
        rw [← List.append_assoc, ← List.append_assoc]
        exact List.Perm.append_right _ List.perm_append_comm
      · simp only [MinPQ.insert, if_neg hc, queueChars, List.map_cons,
          List.flatten_cons]
        exact List.Perm.refl _

/-- The merge loop preserves the multiset of leaf characters: the final
tree's characters are a permutation of the queue's. -/
theorem merge_loop_chars :
    ∀ (k : Nat) (q : List Node), q.length ≤ k → ∀ T, merge_loop q = .ok T →
      (treeChars T).Perm (queueChars q) := by
  intro k
  induction k with
  | zero =>
      intro q hlen T hT
      match q with
      | [] => exact absurd hT (by simp [merge_loop])
      | a :: l => simp at hlen
  | succ k ih =>
      intro q hlen T hT
      match q with
      | [] => exact absurd hT (by simp [merge_loop])
      | [t] =>
          have h1 : merge_loop [t] = .ok t := rfl
          rw [h1] at hT
          cases hT
          simp [queueChars]
      | a :: b :: rest =>
          have hstep : merge_loop (a :: b :: rest) =
              merge_loop (MinPQ.insert
                (Node.mk (a.freq + b.freq) none (some a) (some b)) rest) := rfl
          rw [hstep] at hT
          have hlen2 : (MinPQ.insert
              (Node.mk (a.freq + b.freq) none (some a) (some b)) rest).length ≤ k := by
            rw [MinPQ.insert_length]
            simp only [List.length_cons] at hlen
            omega
          have hperm := ih _ hlen2 T hT
          refine hperm.trans ?_
          refine (queueChars_insert _ rest).trans ?_
          rw [treeChars_merge]
          simp [queueChars, List.append_assoc]

/-- Keys of the frequency table after one step: a repeated character keeps
the key list, a new character is appended to it. -/
theorem freq_table_step_keys (t : List (Char × Nat)) (c : Char) :
    (freq_table_step t c).map Prod.fst =
      if c ∈ t.map Prod.fst then t.map Prod.fst else t.map Prod.fst ++ [c] := by
  induction t with
  | nil => simp [freq_table_step]
  | cons kv rest ih =>
      obtain ⟨k, v⟩ := kv
      by_cases hk : k = c
      · subst hk
        simp [freq_table_step]
      · simp only [freq_table_step, if_neg hk, List.map_cons]
        rw [ih]
        by_cases hc2 : c ∈ rest.map Prod.fst
        · rw [if_pos hc2, if_pos (by simp [hc2])]
        · have hnot : ¬ c ∈ k :: rest.map Prod.fst := by
            simp only [List.mem_cons]
            push_neg
            exact ⟨fun h => hk h.symm, hc2⟩
          rw [if_neg hc2, if_neg hnot]
          simp

/-- Folding the frequency count keeps the key list duplicate-free. -/
theorem freq_table_foldl_keys_nodup :
    ∀ (src : List Char) (acc : List (Char × Nat)),
      (acc.map Prod.fst).Nodup →
      ((src.foldl freq_table_step acc).map Prod.fst).Nodup := by
  intro src
  induction src with
  | nil => exact fun acc h => h
  | cons c rest ih =>
      intro acc h
      simp only [List.foldl_cons]
      apply ih
      rw [freq_table_step_keys]
      by_cases hc : c ∈ acc.map Prod.fst
      · rw [if_pos hc]; exact h
      · rw [if_neg hc]
        simp [List.nodup_append, h, hc]

/-- The keys of a frequency table are pairwise distinct. -/
theorem freq_table_keys_nodup (src : List Char) :
    ((freq_table src).map Prod.fst).Nodup :=
  freq_table_foldl_keys_nodup src [] (by simp)

/-- Key membership in a folded frequency table. -/
theorem freq_table_foldl_mem :
    ∀ (src : List Char) (acc : List (Char × Nat)) (c : Char),
      (c ∈ (src.foldl freq_table_step acc).map Prod.fst ↔
        c ∈ acc.map Prod.fst ∨ c ∈ src) := by
  intro src
  induction src with
  | nil => simp
  | cons a rest ih =>
      intro acc c
      simp only [List.foldl_cons]
      rw [ih]
      have hstep : c ∈ (freq_table_step acc a).map Prod.fst ↔
          c ∈ acc.map Prod.fst ∨ c = a := by
        rw [freq_table_step_keys]
        by_cases ha : a ∈ acc.map Prod.fst
        · rw [if_pos ha]
          constructor
          · exact fun h => Or.inl h
          · rintro (h | rfl)
            · exact h
            · exact ha
        · rw [if_neg ha]
          simp
      rw [hstep]
      simp only [List.mem_cons]
      tauto

/-- A character occurs in the source text exactly when it is a key of the
frequency table. -/
theorem freq_table_mem (src : List Char) (c : Char) :
    c ∈ (freq_table src).map Prod.fst ↔ c ∈ src := by
  unfold freq_table
  rw [freq_table_foldl_mem]
  simp

/-- The leaf characters of the initial queue are a permutation of the
frequency-table keys. -/
theorem initial_queue_chars (src : List Char) :
    (queueChars (initial_queue src)).Perm ((freq_table src).map Prod.fst) := by
  have haux : ∀ (l : List (Char × Nat)) (acc : List Node),
      (queueChars (l.foldl
        (fun q cf => MinPQ.insert (Node.mk cf.2 (some cf.1) none none) q)
        acc)).Perm (queueChars acc ++ l.map Prod.fst) := by
    intro l
    induction l with
    | nil => simp
    | cons cf rest ih =>
        intro acc
        simp only [List.foldl_cons]
        refine (ih _).trans ?_
        have h2 := queueChars_insert (Node.mk cf.2 (some cf.1) none none) acc
        have h3 : treeChars (Node.mk cf.2 (some cf.1) none none) = [cf.1] := rfl
        rw [h3] at h2
        refine (List.Perm.append_right (rest.map Prod.fst) h2).trans ?_
        simp only [List.map_cons, List.singleton_append, List.cons_append]
        exact List.perm_middle.symm
  have h0 := haux (freq_table src) []
  simpa [queueChars] using h0

/-- Leaf characters of a built tree are a permutation of the frequency-table
keys. -/
theorem built_tree_chars {src : List Char} {T : Node}
    (h : build_huffman_tree src = .ok T) :
    (treeChars T).Perm ((freq_table src).map Prod.fst) :=
  (merge_loop_chars (initial_queue src).length (initial_queue src) le_rfl T h).trans
    (initial_queue_chars src)

/-- A built tree carries each distinct source character exactly once. -/
theorem built_tree_chars_nodup {src : List Char} {T : Node}
    (h : build_huffman_tree src = .ok T) : (treeChars T).Nodup :=
  ((built_tree_chars h).nodup_iff).mpr (freq_table_keys_nodup src)

/-- Every character of the source appears among the built tree's leaves. -/
theorem built_tree_chars_mem {src : List Char} {T : Node}
    (h : build_huffman_tree src = .ok T) {c : Char} (hc : c ∈ src) :
    c ∈ treeChars T :=
  ((built_tree_chars h).mem_iff).mpr ((freq_table_mem src c).mpr hc)

/-! ### The code table as root-to-leaf paths -/

/-- Walking a concatenated path is walking the pieces in order. -/
theorem walkTo_append (t : Node) (p s : List Char) :
    walkTo t (p ++ s) = (walkTo t p).bind (fun x => walkTo x s) := by
  induction p generalizing t with
  | nil => simp [walkTo]
  | cons b bs ih =>
      simp only [List.cons_append, walkTo]
      cases (if b = '0' then t.left else t.right) with
      | none => rfl
      | some child => exact ih child

/-- The child selected by a stream character of a wellformed node is
wellformed. -/
theorem child_ok {t child : Node} {b : Char} (h : everyNodeOk t = true)
    (hch : (if b = '0' then t.left else t.right) = some child) :
    everyNodeOk child = true := by
  obtain ⟨f, c, l, r⟩ := t
  obtain ⟨_, hl, hr⟩ := everyNodeOk_inv h
  by_cases hb : b = '0'
  · rw [if_pos hb] at hch
    exact hl child hch
  · rw [if_neg hb] at hch
    exact hr child hch

/-- Nodes reached from a wellformed node are wellformed. -/
theorem walkTo_ok : ∀ (p : List Char) (t x : Node), everyNodeOk t = true →
    walkTo t p = some x → everyNodeOk x = true := by
  intro p
  induction p with
  | nil =>
      intro t x h hw
      cases hw
      exact h
  | cons b bs ih =>
      intro t x h hw
      rw [show walkTo t (b :: bs) =
          match (if b = '0' then t.left else t.right) with
          | none => none
          | some child => walkTo child bs from rfl] at hw
      cases hch : (if b = '0' then t.left else t.right) with
      | none => rw [hch] at hw; cases hw
      | some child =>
          rw [hch] at hw
          exact ih child x (child_ok h hch) hw

/-- A wellformed leaf dead-ends every non-empty walk. -/
theorem walkTo_from_leaf {L : Node} {c : Char} (hok : everyNodeOk L = true)
    (hc : L.char = some c) (b : Char) (bs : List Char) :
    walkTo L (b :: bs) = none := by
  obtain ⟨f, cc, l, r⟩ := L
  cases hc
  obtain ⟨hn, _, _⟩ := everyNodeOk_inv hok
  obtain ⟨hl0, hr0⟩ := nodeOk_leaf hn
  subst hl0
  subst hr0
  rw [show walkTo (Node.mk f (some c) none none) (b :: bs) =
      match (if b = '0' then (none : Option Node) else none) with
      | none => none
      | some child => walkTo child bs from rfl]
  by_cases hb : b = '0' <;> simp [hb]

/-- Characterization of `_build_dictionary` on a wellformed tree: it
succeeds, its keys are exactly the leaf characters in order, and every entry
is the accumulated prefix extended by a path that reaches a leaf carrying
the entry's character. -/
theorem build_dictionary_spec :
    ∀ (t : Node), everyNodeOk t = true → ∀ (pfx : List Char),
      ∃ d, build_dictionary t pfx = .ok d ∧
        d.map Prod.fst = treeChars t ∧
        ∀ e ∈ d, ∃ q L, e.2 = pfx ++ q ∧ walkTo t q = some L ∧
          L.char = some e.1
  | .mk f (some c) l r => by
      intro hok pfx
      refine ⟨[(c, pfx)], rfl, by rw [treeChars.eq_def]; rfl, ?_⟩
      intro e he
      rw [List.mem_singleton] at he
      subst he
      exact ⟨[], .mk f (some c) l r, (List.append_nil pfx).symm, rfl, rfl⟩
  | .mk f none (some l) (some r) => by
      intro hok pfx
      obtain ⟨_, hl, hr⟩ := everyNodeOk_inv hok
      obtain ⟨dl, hdl, hdlc, hdle⟩ := build_dictionary_spec l (hl l rfl) (pfx ++ ['0'])
      obtain ⟨dr, hdr, hdrc, hdre⟩ := build_dictionary_spec r (hr r rfl) (pfx ++ ['1'])
      refine ⟨dl ++ dr, ?_, ?_, ?_⟩
      · simp only [build_dictionary, hdl, hdr]
        rfl
      · rw [treeChars.eq_def]
        simp [hdlc, hdrc]
      · intro e he
        rcases List.mem_append.mp he with h1 | h1
        · obtain ⟨q, L, he2, hw, hcc⟩ := hdle e h1
          refine ⟨'0' :: q, L, by simp [he2], ?_, hcc⟩
          rw [show walkTo (Node.mk f none (some l) (some r)) ('0' :: q) =
              walkTo l q from by simp [walkTo, Node.left]]
          exact hw
        · obtain ⟨q, L, he2, hw, hcc⟩ := hdre e h1
          refine ⟨'1' :: q, L, by simp [he2], ?_, hcc⟩
          rw [show walkTo (Node.mk f none (some l) (some r)) ('1' :: q) =
              walkTo r q from by simp [walkTo, Node.right]]
          exact hw
  | .mk f none none r => by
      intro hok pfx
      obtain ⟨hn, _, _⟩ := everyNodeOk_inv hok
      cases r <;> simp [nodeOk] at hn
  | .mk f none (some l) none => by
      intro hok pfx
      obtain ⟨hn, _, _⟩ := everyNodeOk_inv hok
      simp [nodeOk] at hn

/-! ### Dictionary lookup on duplicate-free key lists -/

/-- Folding the lookup over entries without the key leaves the accumulator
unchanged. -/
theorem dictGet_foldl_no_key (c : Char) :
    ∀ (d : List (Char × List Char)) (acc : Option (List Char)),
      c ∉ d.map Prod.fst →
      d.foldl (fun a kv => if kv.1 = c then some kv.2 else a) acc = acc := by
  intro d
  induction d with
  | nil => intro acc _; rfl
  | cons kv rest ih =>
      intro acc h
      simp only [List.map_cons, List.mem_cons] at h
      push_neg at h
      rw [List.foldl_cons, if_neg (fun hh => h.1 hh.symm)]
      exact ih acc h.2

/-- With duplicate-free keys, every entry is found by lookup. -/
theorem dictGet_some_of_mem :
    ∀ {d : List (Char × List Char)}, (d.map Prod.fst).Nodup →
      ∀ {c : Char} {w : List Char}, (c, w) ∈ d → dictGet d c = some w := by
  intro d
  induction d with
  | nil => intro _ c w h; cases h
  | cons kv rest ih =>
      intro hnd c w hmem
      obtain ⟨k, v⟩ := kv
      simp only [List.map_cons, List.nodup_cons] at hnd
      rcases List.mem_cons.mp hmem with h1 | h1
      · cases h1
        have hck : c ∉ rest.map Prod.fst := hnd.1
        simp only [dictGet, List.foldl_cons, if_pos rfl]
        exact dictGet_foldl_no_key c rest _ hck
      · have hkc : k ≠ c := by
          intro hkc
          subst hkc
          exact hnd.1 (List.mem_map.mpr ⟨(k, w), h1, rfl⟩)
        simp only [dictGet, List.foldl_cons, if_neg hkc]
        exact ih hnd.2 h1

/-- With duplicate-free keys, a successful lookup comes from an entry. -/
theorem dictGet_mem :
    ∀ {d : List (Char × List Char)}, (d.map Prod.fst).Nodup →
      ∀ {c : Char} {w : List Char}, dictGet d c = some w → (c, w) ∈ d := by
  intro d
  induction d with
  | nil => intro _ c w h; cases h
  | cons kv rest ih =>
      intro hnd c w h
      obtain ⟨k, v⟩ := kv
      simp only [List.map_cons, List.nodup_cons] at hnd
      by_cases hkc : k = c
      · subst hkc
        simp only [dictGet, List.foldl_cons, if_pos rfl] at h
        rw [dictGet_foldl_no_key k rest _ hnd.1] at h
        cases h
        exact List.mem_cons_self _ _
      · simp only [dictGet, List.foldl_cons, if_neg hkc] at h
        exact List.mem_cons_of_mem _ (ih hnd.2 h)

/-- A key of the table is always found. -/
theorem dictGet_of_key_mem {d : List (Char × List Char)}
    (hnd : (d.map Prod.fst).Nodup) {c : Char} (h : c ∈ d.map Prod.fst) :
    ∃ w, dictGet d c = some w := by
  obtain ⟨⟨c', w⟩, hmem, hc⟩ := List.mem_map.mp h
  cases hc
  exact ⟨w, dictGet_some_of_mem hnd hmem⟩

/-! ### Claim C3: the derived code table is prefix-free -/

/-- A successful lookup in a built tree's table is a path to a leaf with the
looked-up character. -/
theorem dictGet_walk {src : List Char} {T : Node}
    {cds : List (Char × List Char)} (hT : build_huffman_tree src = .ok T)
    (hd : build_dictionary T [] = .ok cds) {c : Char} {w : List Char}
    (h : dictGet cds c = some w) :
    ∃ L, walkTo T w = some L ∧ L.char = some c := by
  have hok := C7_tree_invariants src T hT
  obtain ⟨d, hdeq, hkeys, hent⟩ := build_dictionary_spec T hok []
  rw [hd] at hdeq
  cases hdeq
  have hnd : (cds.map Prod.fst).Nodup := by
    rw [hkeys]
    exact built_tree_chars_nodup hT
  obtain ⟨q, L, he2, hwalk, hchar⟩ := hent (c, w) (dictGet_mem hnd h)
  simp only [List.nil_append] at he2
  subst he2
  exact ⟨L, hwalk, hchar⟩

/-- C3. For every tree produced by the builder, the derived code table has
duplicate-free keys, carries exactly one code per leaf character, and is
prefix-free: the codes of two distinct characters are never prefixes of one
another. -/
theorem C3_prefix_free (src : List Char) (T : Node)
    (cds : List (Char × List Char)) (hT : build_huffman_tree src = .ok T)
    (hd : build_dictionary T [] = .ok cds) :
    (cds.map Prod.fst).Nodup ∧
    (∀ c, c ∈ treeChars T ↔ ∃ w, dictGet cds c = some w) ∧
    (∀ c₁ w₁ c₂ w₂, dictGet cds c₁ = some w₁ → dictGet cds c₂ = some w₂ →
      c₁ ≠ c₂ → ¬ w₁ <+: w₂) := by
  have hok := C7_tree_invariants src T hT
  obtain ⟨d, hdeq, hkeys, hent⟩ := build_dictionary_spec T hok []
  rw [hd] at hdeq
  cases hdeq
  have hnd : (cds.map Prod.fst).Nodup := by
    rw [hkeys]
    exact built_tree_chars_nodup hT
  refine ⟨hnd, ?_, ?_⟩
  · intro c
    constructor
    · intro hc
      exact dictGet_of_key_mem hnd (by rw [hkeys]; exact hc)
    · intro ⟨w, hw⟩
      have hmm2 : c ∈ cds.map Prod.fst :=
        List.mem_map.mpr ⟨(c, w), dictGet_mem hnd hw, rfl⟩
      rw [hkeys] at hmm2
      exact hmm2
  · intro c₁ w₁ c₂ w₂ h₁ h₂ hne hpre
    obtain ⟨L₁, hw₁, hc₁⟩ := dictGet_walk hT hd h₁
    obtain ⟨L₂, hw₂, hc₂⟩ := dictGet_walk hT hd h₂
    obtain ⟨ext, hext⟩ := hpre
    subst hext
    rw [walkTo_append, hw₁] at hw₂
    simp only [Option.some_bind] at hw₂
    have hL₁ok : everyNodeOk L₁ = true := walkTo_ok w₁ T L₁ hok hw₁
    cases ext with
    | nil =>
        rw [show walkTo L₁ [] = some L₁ from rfl] at hw₂
        cases hw₂
        rw [hc₁] at hc₂
        exact hne (by cases hc₂; rfl)
    | cons b bs =>
        rw [walkTo_from_leaf hL₁ok hc₁ b bs] at hw₂
        cases hw₂

/-- C3 witness: the table of source "ab" is prefix-free with one code per
symbol. -/
theorem C3_prefix_free_witness :
    build_huffman_tree ['a', 'b'] = .ok (Node.mk 2 none
      (some (Node.mk 1 (some 'a') none none))
      (some (Node.mk 1 (some 'b') none none))) ∧
    build_dictionary (Node.mk 2 none
      (some (Node.mk 1 (some 'a') none none))
      (some (Node.mk 1 (some 'b') none none))) [] =
      .ok [('a', ['0']), ('b', ['1'])] ∧
    (([('a', ['0']), ('b', ['1'])].map Prod.fst).Nodup ∧
    (∀ c, c ∈ treeChars (Node.mk 2 none
      (some (Node.mk 1 (some 'a') none none))
      (some (Node.mk 1 (some 'b') none none))) ↔
        ∃ w, dictGet [('a', ['0']), ('b', ['1'])] c = some w) ∧
    (∀ c₁ w₁ c₂ w₂, dictGet [('a', ['0']), ('b', ['1'])] c₁ = some w₁ →
      dictGet [('a', ['0']), ('b', ['1'])] c₂ = some w₂ →
      c₁ ≠ c₂ → ¬ w₁ <+: w₂)) :=
  ⟨rfl, rfl, C3_prefix_free ['a', 'b'] _ _ rfl rfl⟩

/-! ### Claim C1: the round trip -/

/-- The initial queue has one node per frequency-table entry. -/
theorem initial_queue_length (src : List Char) :
    (initial_queue src).length = (freq_table src).length := by
  have haux : ∀ (l : List (Char × Nat)) (acc : List Node),
      (l.foldl
        (fun q cf => MinPQ.insert (Node.mk cf.2 (some cf.1) none none) q)
        acc).length = acc.length + l.length := by
    intro l
    induction l with
    | nil => simp
    | cons cf rest ih =>
        intro acc
        simp only [List.foldl_cons, ih, MinPQ.insert_length, List.length_cons]
        omega
  have h0 := haux (freq_table src) []
  simpa [initial_queue] using h0

/-- The merge loop succeeds on every non-empty queue. -/
theorem merge_loop_some :
    ∀ (k : Nat) (q : List Node), q.length ≤ k → q ≠ [] →
      ∃ T, merge_loop q = .ok T := by
  intro k
  induction k with
  | zero =>
      intro q hlen hne
      match q with
      | [] => exact absurd rfl hne
      | a :: l => simp at hlen
  | succ k ih =>
      intro q hlen hne
      match q with
      | [] => exact absurd rfl hne
      | [t] => exact ⟨t, rfl⟩
      | a :: b :: rest =>
          have hstep : merge_loop (a :: b :: rest) =
              merge_loop (MinPQ.insert
                (Node.mk (a.freq + b.freq) none (some a) (some b)) rest) := rfl
          rw [hstep]
          refine ih _ ?_ ?_
          · rw [MinPQ.insert_length]
            simp only [List.length_cons] at hlen
            omega
          · intro h0
            have := congrArg List.length h0
            rw [MinPQ.insert_length] at this
            simp at this

/-- With at least two queue entries, the loop's result is an internal node
(no character). -/
theorem merge_loop_internal :
    ∀ (k : Nat) (q : List Node), q.length ≤ k → 2 ≤ q.length →
      ∀ T, merge_loop q = .ok T → T.char = none := by
  intro k
  induction k with
  | zero =>
      intro q hlen h2
      omega
  | succ k ih =>
      intro q hlen h2 T hT
      match q with
      | [] => simp at h2
      | [t] => simp at h2
      | a :: b :: rest =>
          have hstep : merge_loop (a :: b :: rest) =
              merge_loop (MinPQ.insert
                (Node.mk (a.freq + b.freq) none (some a) (some b)) rest) := rfl
          rw [hstep] at hT
          cases rest with
          | nil =>
              have h1 : merge_loop (MinPQ.insert
                  (Node.mk (a.freq + b.freq) none (some a) (some b)) []) =
                  .ok (Node.mk (a.freq + b.freq) none (some a) (some b)) := rfl
              rw [h1] at hT
              cases hT
              rfl
          | cons c rest' =>
              refine ih _ ?_ ?_ T hT
              · rw [MinPQ.insert_length]
                simp only [List.length_cons] at hlen ⊢
                omega
              · rw [MinPQ.insert_length]
                simp only [List.length_cons]
                omega

/-- Decoding one full code from the root emits its character and continues
with the remaining stream from the root. -/
theorem decode_code (T : Node) :
    ∀ (w : List Char) (X : Node), everyNodeOk X = true →
      ∀ (L : Node) (c : Char), walkTo X w = some L → L.char = some c →
        w ≠ [] → ∀ rest,
        decode_loop T X (w ++ rest) =
          (decode_loop T T rest).map (fun t => c :: t) := by
  intro w
  induction w with
  | nil => intro X _ L c _ _ hne; exact absurd rfl hne
  | cons b bs ih =>
      intro X hX L c hwalk hchar _ rest
      rw [show walkTo X (b :: bs) =
          match (if b = '0' then X.left else X.right) with
          | none => none
          | some child => walkTo child bs from rfl] at hwalk
      cases hch : (if b = '0' then X.left else X.right) with
      | none => rw [hch] at hwalk; cases hwalk
      | some child =>
          rw [hch] at hwalk
          dsimp only at hwalk
          have hchild_ok := child_ok hX hch
          have hbody : decode_loop T X ((b :: bs) ++ rest) =
              match (if b = '0' then X.left else X.right) with
              | none => .error .attributeError
              | some ch =>
                  match ch.char with
                  | some c => (decode_loop T T (bs ++ rest)).map (fun t => c :: t)
                  | none => decode_loop T ch (bs ++ rest) := rfl
          rw [hbody, hch]
          dsimp only
          cases bs with
          | nil =>
              have hL : child = L := by
                rw [show walkTo child [] = some child from rfl] at hwalk
                exact Option.some.inj hwalk
              subst hL
              rw [hchar]
              dsimp only
              rfl
          | cons b' bs' =>
              cases hcc : child.char with
              | some c' =>
                  rw [walkTo_from_leaf hchild_ok hcc b' bs'] at hwalk
                  cases hwalk
              | none =>
                  dsimp only
                  exact ih child hchild_ok L c hwalk hchar (by simp) rest

/-- Encoding a text whose characters all appear in a built tree succeeds,
and decoding the resulting stream recovers the text. -/
theorem encode_decode_chain {src : List Char} {T : Node}
    {cds : List (Char × List Char)} (hT : build_huffman_tree src = .ok T)
    (hd : build_dictionary T [] = .ok cds) (hint : T.char = none) :
    ∀ s : List Char, (∀ c ∈ s, c ∈ treeChars T) →
      ∃ enc, encode_chars cds s = .ok enc ∧ decode_loop T T enc = .ok s := by
  have hok := C7_tree_invariants src T hT
  obtain ⟨d', hd', hkeys, _⟩ := build_dictionary_spec T hok []
  rw [hd] at hd'
  cases hd'
  have hnd : (cds.map Prod.fst).Nodup := by
    rw [hkeys]
    exact built_tree_chars_nodup hT
  intro s
  induction s with
  | nil => exact fun _ => ⟨[], rfl, rfl⟩
  | cons c s' ih =>
      intro hmem
      have hc : c ∈ treeChars T := hmem c (List.mem_cons_self c s')
      obtain ⟨w, hw⟩ := dictGet_of_key_mem hnd (by rw [hkeys]; exact hc)
      obtain ⟨L, hwalk, hchar⟩ := dictGet_walk hT hd hw
      obtain ⟨enc', henc', hdec'⟩ :=
        ih (fun c2 h2 => hmem c2 (List.mem_cons_of_mem _ h2))
      refine ⟨w ++ enc', ?_, ?_⟩
      · rw [show encode_chars cds (c :: s') =
            match dictGet cds c with
            | none => .error (.keyError c)
            | some w => (encode_chars cds s').map (fun e => w ++ e) from rfl,
          hw, henc']
        rfl
      · have hwne : w ≠ [] := by
          intro h0
          subst h0
          rw [show walkTo T ([] : List Char) = some T from rfl] at hwalk
          cases hwalk
          rw [hint] at hchar
          cases hchar
        rw [decode_code T w T hok L c hwalk hchar hwne enc', hdec']
        rfl

/-- C1 counterexample. For the single-symbol source "a" the round trip
returns the empty string, not "a": the claim fails at a non-empty source
text (same root cause as the C2 boundary). -/
theorem C1_single_symbol_roundtrip_fails :
    round_trip ['a'] = .ok [] ∧ round_trip ['a'] ≠ .ok ['a'] := by
  refine ⟨rfl, ?_⟩
  intro h
  rw [show round_trip ['a'] = .ok [] from rfl] at h
  simp at h

/-- C1 amended. For every source text with at least two distinct symbols,
building the tree, encoding, and decoding the stream with that tree
recovers the source text exactly. -/
theorem C1_roundtrip_two_symbols (src : List Char)
    (h2 : 2 ≤ (freq_table src).length) :
    ∃ T cds enc, build_huffman_tree src = .ok T ∧
      build_dictionary T [] = .ok cds ∧
      encoding cds (some src) = .ok enc ∧
      decode_encoded_text enc T = .ok src := by
  have hne : initial_queue src ≠ [] := by
    intro h0
    have hlen := initial_queue_length src
    rw [h0] at hlen
    simp at hlen
    omega
  obtain ⟨T, hT⟩ := merge_loop_some (initial_queue src).length _ le_rfl hne
  have hTb : build_huffman_tree src = .ok T := hT
  have hok := C7_tree_invariants src T hTb
  have hint : T.char = none :=
    merge_loop_internal (initial_queue src).length _ le_rfl
      (by rw [initial_queue_length]; exact h2) T hT
  obtain ⟨d, hd, _, _⟩ := build_dictionary_spec T hok []
  obtain ⟨enc, henc, hdec⟩ :=
    encode_decode_chain hTb hd hint src (fun c hc => built_tree_chars_mem hTb hc)
  exact ⟨T, d, enc, hTb, hd, henc, hdec⟩

/-- C1 witness: the two-symbol source "ab" satisfies the hypothesis and
round-trips. -/
theorem C1_roundtrip_two_symbols_witness :
    2 ≤ (freq_table ['a', 'b']).length ∧
    ∃ T cds enc, build_huffman_tree ['a', 'b'] = .ok T ∧
      build_dictionary T [] = .ok cds ∧
      encoding cds (some ['a', 'b']) = .ok enc ∧
      decode_encoded_text enc T = .ok ['a', 'b'] :=
  ⟨by decide, C1_roundtrip_two_symbols ['a', 'b'] (by decide)⟩

/-! ### Claim C8: depth machinery on the queue -/

/-- Unfolding of one decoder-style step of `walkTo`. -/
theorem walkTo_cons (t : Node) (b : Char) (bs : List Char) :
    walkTo t (b :: bs) =
      match (if b = '0' then t.left else t.right) with
      | none => none
      | some child => walkTo child bs := rfl

/-- Characters of an internal node split into the children's characters. -/
theorem treeChars_internal {t l r : Node} (hc : t.char = none)
    (hl : t.left = some l) (hr : t.right = some r) :
    treeChars t = treeChars l ++ treeChars r := by
  obtain ⟨f, cc, ll, rr⟩ := t
  cases hc
  cases hl
  cases hr
  rw [treeChars.eq_def]

/-- Number of nodes of a tree. -/
def nsize : Node → Nat
  | .mk _ _ l r =>
      1 + (match l with | some x => nsize x | none => 0) +
      (match r with | some x => nsize x | none => 0)

/-- Size of an optional subtree. -/
def osize : Option Node → Nat
  | some x => nsize x
  | none => 0

/-- Unfolding of `nsize` at a constructor. -/
theorem nsize_mk (f : Nat) (c : Option Char) (l r : Option Node) :
    nsize (Node.mk f c l r) = 1 + osize l + osize r := by
  cases l <;> cases r <;> rw [nsize.eq_def] <;> rfl

/-- A selected child is a strictly smaller tree. -/
theorem child_nsize {t child : Node} {b : Char}
    (hch : (if b = '0' then t.left else t.right) = some child) :
    nsize child < nsize t := by
  obtain ⟨f, c, l, r⟩ := t
  by_cases hb : b = '0'
  · rw [if_pos hb] at hch
    cases hch
    rw [nsize_mk, show osize (some child) = nsize child from rfl]
    omega
  · rw [if_neg hb] at hch
    cases hch
    rw [nsize_mk, show osize (some child) = nsize child from rfl]
    omega

/-- Walking can only shrink the tree, by at least the number of consumed
characters. -/
theorem walkTo_nsize : ∀ (p : List Char) (t x : Node),
    walkTo t p = some x → nsize x + p.length ≤ nsize t := by
  intro p
  induction p with
  | nil =>
      intro t x h
      cases h
      simp
  | cons b bs ih =>
      intro t x h
      rw [walkTo_cons] at h
      cases hch : (if b = '0' then t.left else t.right) with
      | none => rw [hch] at h; cases h
      | some child =>
          rw [hch] at h
          have h1 := ih child x h
          have h2 := child_nsize hch
          simp only [List.length_cons]
          omega

/-- A node with a selected child is internal: its character is `None` and
both children are present, the selected one among them. -/
theorem internal_of_child {t child : Node} {b : Char}
    (hok : everyNodeOk t = true)
    (hch : (if b = '0' then t.left else t.right) = some child) :
    t.char = none ∧ ∃ l r, t.left = some l ∧ t.right = some r ∧
      (child = l ∨ child = r) := by
  obtain ⟨f, c, l, r⟩ := t
  obtain ⟨hn, _, _⟩ := everyNodeOk_inv hok
  cases c with
  | some cc =>
      obtain ⟨hl0, hr0⟩ := nodeOk_leaf hn
      subst hl0
      subst hr0
      by_cases hb : b = '0'
      · rw [if_pos hb] at hch; cases hch
      · rw [if_neg hb] at hch; cases hch
  | none =>
      obtain ⟨x, y, hx, hy, _⟩ := nodeOk_internal hn
      refine ⟨rfl, x, y, hx, hy, ?_⟩
      by_cases hb : b = '0'
      · rw [if_pos hb, hx] at hch
        cases hch
        exact Or.inl rfl
      · rw [if_neg hb, hy] at hch
        cases hch
        exact Or.inr rfl

/-- Characters of a reached subtree occur in the starting tree. -/
theorem walkTo_chars_sub : ∀ (p : List Char) (t x : Node),
    everyNodeOk t = true → walkTo t p = some x →
    ∀ ch ∈ treeChars x, ch ∈ treeChars t := by
  intro p
  induction p with
  | nil =>
      intro t x _ h ch hch
      cases h
      exact hch
  | cons b bs ih =>
      intro t x hok h ch hch
      rw [walkTo_cons] at h
      cases hsel : (if b = '0' then t.left else t.right) with
      | none => rw [hsel] at h; cases h
      | some child =>
          rw [hsel] at h
          have hchild := ih child x (child_ok hok hsel) h ch hch
          obtain ⟨hc0, l, r, hl, hr, hcd⟩ := internal_of_child hok hsel
          rw [treeChars_internal hc0 hl hr]
          rcases hcd with rfl | rfl
          · exact List.mem_append_left _ hchild
          · exact List.mem_append_right _ hchild

/-- Two walks from a wellformed duplicate-free tree that reach the same
subtree, carrying at least one character, have the same length. -/
theorem walk_unique_length : ∀ (p q : List Char) (t x : Node),
    everyNodeOk t = true → (treeChars t).Nodup → treeChars x ≠ [] →
    walkTo t p = some x → walkTo t q = some x → p.length = q.length := by
  intro p
  induction p with
  | nil =>
      intro q t x _ _ _ hp hq
      cases hp
      cases q with
      | nil => rfl
      | cons b bs =>
          have hs := walkTo_nsize (b :: bs) t t hq
          simp only [List.length_cons] at hs
          omega
  | cons b bs ih =>
      intro q t x hok hnd hx hp hq
      cases q with
      | nil =>
          cases hq
          have hs := walkTo_nsize (b :: bs) t t hp
          simp only [List.length_cons] at hs
          omega
      | cons b2 bs2 =>
          rw [walkTo_cons] at hp hq
          cases hsel1 : (if b = '0' then t.left else t.right) with
          | none => rw [hsel1] at hp; cases hp
          | some ch1 =>
              rw [hsel1] at hp
              dsimp only at hp
              cases hsel2 : (if b2 = '0' then t.left else t.right) with
              | none => rw [hsel2] at hq; cases hq
              | some ch2 =>
                  rw [hsel2] at hq
                  dsimp only at hq
                  have hok1 := child_ok hok hsel1
                  have hok2 := child_ok hok hsel2
                  obtain ⟨hc0, l, r, hl, hr, _⟩ := internal_of_child hok hsel1
                  have htc : treeChars t = treeChars l ++ treeChars r :=
                    treeChars_internal hc0 hl hr
                  have hndl : (treeChars l).Nodup := by
                    rw [htc] at hnd
                    exact hnd.of_append_left
                  have hndr : (treeChars r).Nodup := by
                    rw [htc] at hnd
                    exact hnd.of_append_right
                  have hdisj : ∀ ch, ch ∈ treeChars l → ch ∈ treeChars r → False := by
                    intro ch h1 h2
                    rw [htc] at hnd
                    exact (List.disjoint_of_nodup_append hnd) h1 h2
                  obtain ⟨ch, hch⟩ := List.exists_mem_of_ne_nil _ hx
                  simp only [List.length_cons]
                  by_cases hb1 : b = '0' <;> by_cases hb2 : b2 = '0'
                  · rw [if_pos hb1] at hsel1
                    rw [if_pos hb2] at hsel2
                    have he12 : ch1 = ch2 :=
                      Option.some.inj (hsel1.symm.trans hsel2)
                    have hel : l = ch1 :=
                      Option.some.inj (hl.symm.trans hsel1)
                    rw [← he12] at hq
                    rw [hel] at hndl
                    have hlen := ih bs2 ch1 x hok1 hndl hx hp hq
                    omega
                  · rw [if_pos hb1] at hsel1
                    rw [if_neg hb2] at hsel2
                    have hel : l = ch1 :=
                      Option.some.inj (hl.symm.trans hsel1)
                    have her : r = ch2 :=
                      Option.some.inj (hr.symm.trans hsel2)
                    rw [hel, her] at hdisj
                    exact (hdisj ch
                      (walkTo_chars_sub bs ch1 x hok1 hp ch hch)
                      (walkTo_chars_sub bs2 ch2 x hok2 hq ch hch)).elim
                  · rw [if_neg hb1] at hsel1
                    rw [if_pos hb2] at hsel2
                    have her : r = ch1 :=
                      Option.some.inj (hr.symm.trans hsel1)
                    have hel : l = ch2 :=
                      Option.some.inj (hl.symm.trans hsel2)
                    rw [hel, her] at hdisj
                    exact (hdisj ch
                      (walkTo_chars_sub bs2 ch2 x hok2 hq ch hch)
                      (walkTo_chars_sub bs ch1 x hok1 hp ch hch)).elim
                  · rw [if_neg hb1] at hsel1
                    rw [if_neg hb2] at hsel2
                    have he12 : ch1 = ch2 :=
                      Option.some.inj (hsel1.symm.trans hsel2)
                    have her : r = ch1 :=
                      Option.some.inj (hr.symm.trans hsel1)
                    rw [← he12] at hq
                    rw [her] at hndr
                    have hlen := ih bs2 ch1 x hok1 hndr hx hp hq
                    omega

/-- A node carrying a character contributes it to the character list. -/
theorem char_mem_treeChars {L : Node} {ch : Char} (h : L.char = some ch) :
    ch ∈ treeChars L := by
  obtain ⟨f, cc, l, r⟩ := L
  cases h
  have ht : treeChars (Node.mk f (some ch) l r) = [ch] := by
    rw [treeChars.eq_def]
  rw [ht]
  exact List.mem_singleton_self ch

/-- Two walks of a wellformed duplicate-free tree that end at leaves carrying
the same character have the same length. -/
theorem walk_char_unique_length : ∀ (p q : List Char) (t L₁ L₂ : Node)
    (ch : Char), everyNodeOk t = true → (treeChars t).Nodup →
    walkTo t p = some L₁ → L₁.char = some ch →
    walkTo t q = some L₂ → L₂.char = some ch → p.length = q.length := by
  intro p
  induction p with
  | nil =>
      intro q t L₁ L₂ ch hok hnd hp hc1 hq hc2
      have ht1 : L₁ = t := (Option.some.inj hp).symm
      subst ht1
      cases q with
      | nil => rfl
      | cons b bs =>
          rw [walkTo_cons] at hq
          obtain ⟨f, cc, l, r⟩ := L₁
          cases hc1
          obtain ⟨hn, _, _⟩ := everyNodeOk_inv hok
          obtain ⟨hl0, hr0⟩ := nodeOk_leaf hn
          rw [show (Node.mk f (some ch) l r).left = l from rfl,
            show (Node.mk f (some ch) l r).right = r from rfl, hl0, hr0] at hq
          by_cases hb : b = '0'
          · rw [if_pos hb] at hq; cases hq
          · rw [if_neg hb] at hq; cases hq
  | cons b bs ih =>
      intro q t L₁ L₂ ch hok hnd hp hc1 hq hc2
      cases q with
      | nil =>
          have ht2 : L₂ = t := (Option.some.inj hq).symm
          subst ht2
          rw [walkTo_cons] at hp
          obtain ⟨f, cc, l, r⟩ := L₂
          cases hc2
          obtain ⟨hn, _, _⟩ := everyNodeOk_inv hok
          obtain ⟨hl0, hr0⟩ := nodeOk_leaf hn
          rw [show (Node.mk f (some ch) l r).left = l from rfl,
            show (Node.mk f (some ch) l r).right = r from rfl, hl0, hr0] at hp
          by_cases hb : b = '0'
          · rw [if_pos hb] at hp; cases hp
          · rw [if_neg hb] at hp; cases hp
      | cons b2 bs2 =>
          rw [walkTo_cons] at hp hq
          cases hsel1 : (if b = '0' then t.left else t.right) with
          | none => rw [hsel1] at hp; cases hp
          | some ch1 =>
              rw [hsel1] at hp
              dsimp only at hp
              cases hsel2 : (if b2 = '0' then t.left else t.right) with
              | none => rw [hsel2] at hq; cases hq
              | some ch2 =>
                  rw [hsel2] at hq
                  dsimp only at hq
                  have hok1 := child_ok hok hsel1
                  have hok2 := child_ok hok hsel2
                  obtain ⟨hc0, l, r, hl, hr, _⟩ := internal_of_child hok hsel1
                  have htc : treeChars t = treeChars l ++ treeChars r :=
                    treeChars_internal hc0 hl hr
                  have hndl : (treeChars l).Nodup := by
                    rw [htc] at hnd
                    exact hnd.of_append_left
                  have hndr : (treeChars r).Nodup := by
                    rw [htc] at hnd
                    exact hnd.of_append_right
                  have hdisj : ∀ c0, c0 ∈ treeChars l → c0 ∈ treeChars r → False := by
                    intro c0 h1 h2
                    rw [htc] at hnd
                    exact (List.disjoint_of_nodup_append hnd) h1 h2
                  have hm1 : ch ∈ treeChars L₁ := char_mem_treeChars hc1
                  have hm2 : ch ∈ treeChars L₂ := char_mem_treeChars hc2
                  simp only [List.length_cons]
                  by_cases hb1 : b = '0' <;> by_cases hb2 : b2 = '0'
                  · rw [if_pos hb1] at hsel1
                    rw [if_pos hb2] at hsel2
                    have he12 : ch1 = ch2 :=
                      Option.some.inj (hsel1.symm.trans hsel2)
                    have hel : l = ch1 :=
                      Option.some.inj (hl.symm.trans hsel1)
                    rw [← he12] at hq
                    rw [hel] at hndl
                    have hlen := ih bs2 ch1 L₁ L₂ ch hok1 hndl hp hc1 hq hc2
                    omega
                  · rw [if_pos hb1] at hsel1
                    rw [if_neg hb2] at hsel2
                    have hel : l = ch1 :=
                      Option.some.inj (hl.symm.trans hsel1)
                    have her : r = ch2 :=
                      Option.some.inj (hr.symm.trans hsel2)
                    rw [hel, her] at hdisj
                    exact (hdisj ch
                      (walkTo_chars_sub bs ch1 L₁ hok1 hp ch hm1)
                      (walkTo_chars_sub bs2 ch2 L₂ hok2 hq ch hm2)).elim
                  · rw [if_neg hb1] at hsel1
                    rw [if_pos hb2] at hsel2
                    have her : r = ch1 :=
                      Option.some.inj (hr.symm.trans hsel1)
                    have hel : l = ch2 :=
                      Option.some.inj (hl.symm.trans hsel2)
                    rw [hel, her] at hdisj
                    exact (hdisj ch
                      (walkTo_chars_sub bs2 ch2 L₂ hok2 hq ch hm2)
                      (walkTo_chars_sub bs ch1 L₁ hok1 hp ch hm1)).elim
                  · rw [if_neg hb1] at hsel1
                    rw [if_neg hb2] at hsel2
                    have he12 : ch1 = ch2 :=
                      Option.some.inj (hsel1.symm.trans hsel2)
                    have her : r = ch1 :=
                      Option.some.inj (hr.symm.trans hsel1)
                    rw [← he12] at hq
                    rw [her] at hndr
                    have hlen := ih bs2 ch1 L₁ L₂ ch hok1 hndr hp hc1 hq hc2
                    omega

/-- The inserted node is in the queue. -/
theorem MinPQ.insert_self (n : Node) (l : List Node) :
    n ∈ MinPQ.insert n l :=
  MinPQ.insert_mem.mpr (Or.inl rfl)

/-- Insertion preserves the relative order of the old queue entries. -/
theorem IsBefore_insert {x y n : Node} :
    ∀ {l : List Node}, IsBefore x y l → IsBefore x y (MinPQ.insert n l) := by
  intro l
  induction l with
  | nil => intro h; cases h
  | cons m rest ih =>
      intro h
      by_cases hc : m.freq ≤ n.freq
      · rw [show MinPQ.insert n (m :: rest) =
            m :: MinPQ.insert n rest from by rw [MinPQ.insert, if_pos hc]]
        rcases h with ⟨rfl, hy⟩ | h
        · exact Or.inl ⟨rfl, MinPQ.insert_mem.mpr (Or.inr hy)⟩
        · exact Or.inr (ih h)
      · rw [show MinPQ.insert n (m :: rest) =
            n :: m :: rest from by rw [MinPQ.insert, if_neg hc]]
        exact Or.inr h

/-- A sorted queue entry of no larger frequency ends up before the freshly
inserted node. -/
theorem IsBefore_insert_new {x n : Node} :
    ∀ {l : List Node}, List.Pairwise (fun u v => u.freq ≤ v.freq) l →
      x ∈ l → x.freq ≤ n.freq → IsBefore x n (MinPQ.insert n l) := by
  intro l
  induction l with
  | nil => intro _ h _; cases h
  | cons m rest ih =>
      intro hs hx hle
      rw [List.pairwise_cons] at hs
      by_cases hc : m.freq ≤ n.freq
      · rw [show MinPQ.insert n (m :: rest) =
            m :: MinPQ.insert n rest from by rw [MinPQ.insert, if_pos hc]]
        rcases List.mem_cons.mp hx with rfl | hx2
        · exact Or.inl ⟨rfl, MinPQ.insert_self n rest⟩
        · exact Or.inr (ih hs.2 hx2 hle)
      · exfalso
        rcases List.mem_cons.mp hx with rfl | hx2
        · exact hc hle
        · exact hc (le_trans (hs.1 x hx2) hle)

/-- In a sorted queue, a strictly smaller entry occurs before a larger one. -/
theorem IsBefore_of_sorted {u v : Node} :
    ∀ {l : List Node}, List.Pairwise (fun a b => a.freq ≤ b.freq) l →
      u ∈ l → v ∈ l → u.freq < v.freq → IsBefore u v l := by
  intro l
  induction l with
  | nil => intro _ h _ _; cases h
  | cons m rest ih =>
      intro hs hu hv hlt
      rw [List.pairwise_cons] at hs
      rcases List.mem_cons.mp hu with rfl | hu2
      · rcases List.mem_cons.mp hv with rfl | hv2
        · omega
        · exact Or.inl ⟨rfl, hv2⟩
      · rcases List.mem_cons.mp hv with rfl | hv2
        · exact absurd (hs.1 u hu2) (by omega)
        · exact Or.inr (ih hs.2 hu2 hv2 hlt)

/-- Whoever is before someone is in the queue. -/
theorem IsBefore_mem {x y : Node} :
    ∀ {l : List Node}, IsBefore x y l → x ∈ l ∧ y ∈ l := by
  intro l
  induction l with
  | nil => intro h; cases h
  | cons m rest ih =>
      intro h
      rcases h with ⟨rfl, hy⟩ | h
      · exact ⟨List.mem_cons_self _ _, List.mem_cons_of_mem _ hy⟩
      · obtain ⟨h1, h2⟩ := ih h
        exact ⟨List.mem_cons_of_mem _ h1, List.mem_cons_of_mem _ h2⟩

/-- Insertion into a sorted queue keeps it sorted. -/
theorem MinPQ.insert_sorted {n : Node} :
    ∀ {l : List Node}, List.Pairwise (fun u v => u.freq ≤ v.freq) l →
      List.Pairwise (fun u v => u.freq ≤ v.freq) (MinPQ.insert n l) := by
  intro l
  induction l with
  | nil => intro _; simp [MinPQ.insert]
  | cons m rest ih =>
      intro hs
      rw [List.pairwise_cons] at hs
      by_cases hc : m.freq ≤ n.freq
      · rw [show MinPQ.insert n (m :: rest) =
            m :: MinPQ.insert n rest from by rw [MinPQ.insert, if_pos hc]]
        rw [List.pairwise_cons]
        refine ⟨?_, ih hs.2⟩
        intro x hx
        rcases MinPQ.insert_mem.mp hx with rfl | hx2
        · exact hc
        · exact hs.1 x hx2
      · rw [show MinPQ.insert n (m :: rest) =
            n :: m :: rest from by rw [MinPQ.insert, if_neg hc]]
        rw [List.pairwise_cons]
        constructor
        · intro x hx
          rcases List.mem_cons.mp hx with rfl | hx2
          · omega
          · exact le_trans (by omega) (hs.1 x hx2)
        · rw [List.pairwise_cons]
          exact hs

/-- The bundle of queue invariants maintained by the merge loop: sorted by
frequency, wellformed entries, every entry with at least one character, and
duplicate-free leaf characters overall. -/
def QInv (q : List Node) : Prop :=
  List.Pairwise (fun u v => u.freq ≤ v.freq) q ∧
  (∀ n ∈ q, everyNodeOk n = true) ∧
  (∀ n ∈ q, treeChars n ≠ []) ∧
  (queueChars q).Nodup

/-- One merge step preserves the queue invariants. -/
theorem QInv_step {a b : Node} {rest : List Node}
    (h : QInv (a :: b :: rest)) :
    QInv (MinPQ.insert (Node.mk (a.freq + b.freq) none (some a) (some b)) rest) := by
  obtain ⟨hs, hok, hne, hnd⟩ := h
  rw [List.pairwise_cons] at hs
  obtain ⟨hsa, hs2⟩ := hs
  rw [List.pairwise_cons] at hs2
  obtain ⟨hsb, hs3⟩ := hs2
  refine ⟨MinPQ.insert_sorted hs3, ?_, ?_, ?_⟩
  · intro n hn
    rcases MinPQ.insert_mem.mp hn with rfl | hn2
    · exact everyNodeOk_merge
        (hok a (List.mem_cons_self _ _))
        (hok b (List.mem_cons_of_mem _ (List.mem_cons_self _ _)))
    · exact hok n (List.mem_cons_of_mem _ (List.mem_cons_of_mem _ hn2))
  · intro n hn
    rcases MinPQ.insert_mem.mp hn with rfl | hn2
    · rw [treeChars_merge]
      intro h0
      exact hne a (List.mem_cons_self _ _)
        (List.append_eq_nil.mp h0).1
    · exact hne n (List.mem_cons_of_mem _ (List.mem_cons_of_mem _ hn2))
  · have hperm : (queueChars (MinPQ.insert
        (Node.mk (a.freq + b.freq) none (some a) (some b)) rest)).Perm
        (queueChars (a :: b :: rest)) := by
      refine (queueChars_insert _ rest).trans ?_
      rw [treeChars_merge]
      simp [queueChars, List.append_assoc]
    exact hperm.nodup_iff.mpr hnd

/-- The result of the merge loop on an invariant-satisfying queue is
wellformed with duplicate-free characters. -/
theorem merge_loop_result_props {q : List Node} {T : Node} (hq : QInv q)
    (hT : merge_loop q = .ok T) :
    everyNodeOk T = true ∧ (treeChars T).Nodup := by
  obtain ⟨_, hok, _, hnd⟩ := hq
  refine ⟨merge_loop_wf q.length q le_rfl hok T hT, ?_⟩
  exact ((merge_loop_chars q.length q le_rfl T hT).nodup_iff).mpr hnd

/-- Each half of a merged node is reached by extending a path to the node
with one step. -/
theorem walkTo_merge_left (a b : Node) :
    walkTo (Node.mk (a.freq + b.freq) none (some a) (some b)) ['0'] = some a := by
  rw [walkTo_cons]
  simp only [Node.left, if_pos rfl]
  rfl

/-- Right-hand analogue of `walkTo_merge_left`. -/
theorem walkTo_merge_right (a b : Node) :
    walkTo (Node.mk (a.freq + b.freq) none (some a) (some b)) ['1'] = some b := by
  rw [walkTo_cons]
  simp only [Node.right, if_neg (show ¬('1' : Char) = '0' from by decide)]
  rfl

/-- Every queue entry ends up as a subtree of the loop's result: some path
reaches it. -/
theorem merge_loop_subtree :
    ∀ (k : Nat) (q : List Node), q.length ≤ k → ∀ T, merge_loop q = .ok T →
      ∀ n ∈ q, ∃ p, walkTo T p = some n := by
  intro k
  induction k with
  | zero =>
      intro q hlen T hT n hn
      match q with
      | [] => cases hn
      | a :: l => simp at hlen
  | succ k ih =>
      intro q hlen T hT n hn
      match q with
      | [] => cases hn
      | [t] =>
          have h1 : merge_loop [t] = .ok t := rfl
          rw [h1] at hT
          cases hT
          rcases List.mem_singleton.mp hn with rfl
          exact ⟨[], rfl⟩
      | a :: b :: rest =>
          have hstep : merge_loop (a :: b :: rest) =
              merge_loop (MinPQ.insert
                (Node.mk (a.freq + b.freq) none (some a) (some b)) rest) := rfl
          rw [hstep] at hT
          have hlen2 : (MinPQ.insert
              (Node.mk (a.freq + b.freq) none (some a) (some b)) rest).length ≤ k := by
            rw [MinPQ.insert_length]
            simp only [List.length_cons] at hlen
            omega
          obtain ⟨pm, hpm⟩ := ih _ hlen2 T hT _
            (MinPQ.insert_self (Node.mk (a.freq + b.freq) none (some a) (some b)) rest)
          rcases List.mem_cons.mp hn with rfl | hn2
          · refine ⟨pm ++ ['0'], ?_⟩
            rw [walkTo_append, hpm]
            simpa using walkTo_merge_left n b
          · rcases List.mem_cons.mp hn2 with rfl | hn3
            · refine ⟨pm ++ ['1'], ?_⟩
              rw [walkTo_append, hpm]
              simpa using walkTo_merge_right a n
            · exact ih _ hlen2 T hT n (MinPQ.insert_mem.mpr (Or.inr hn3))

/-- Unfolding of `IsBefore` on a cons cell. -/
theorem IsBefore_cons {x y a : Node} {l : List Node} :
    IsBefore x y (a :: l) ↔ (x = a ∧ y ∈ l) ∨ IsBefore x y l := Iff.rfl

/-- Queue order bounds final depths: with the stable tie-breaking of the
modelled queue, an entry placed earlier in the sorted queue ends at least as
deep in the final tree as any entry placed after it. -/
theorem merge_loop_depth_mono :
    ∀ (k : Nat) (q : List Node), q.length ≤ k → QInv q →
      ∀ T, merge_loop q = .ok T →
      ∀ x y, IsBefore x y q →
      ∀ px py, walkTo T px = some x → walkTo T py = some y →
        py.length ≤ px.length := by
  intro k
  induction k with
  | zero =>
      intro q hlen hq T hT x y hxy px py hpx hpy
      match q with
      | [] => exact ((hxy : False)).elim
      | a :: l => simp at hlen
  | succ k ih =>
      intro q hlen hq T hT x y hxy px py hpx hpy
      match q with
      | [] => exact ((hxy : False)).elim
      | [t] =>
          rcases IsBefore_cons.mp hxy with ⟨rfl, hy⟩ | h
          · cases hy
          · exact ((h : False)).elim
      | a :: b :: rest =>
          obtain ⟨hTok, hTnd⟩ := merge_loop_result_props hq hT
          obtain ⟨hsort, hokq, hneq, hndq⟩ := hq
          have hq2 : QInv (a :: b :: rest) := ⟨hsort, hokq, hneq, hndq⟩
          have hp1 := List.pairwise_cons.mp hsort
          have hp2 := List.pairwise_cons.mp hp1.2
          set m := Node.mk (a.freq + b.freq) none (some a) (some b) with hm
          have hstep : merge_loop (a :: b :: rest) =
              merge_loop (MinPQ.insert m rest) := rfl
          have hT' : merge_loop (MinPQ.insert m rest) = .ok T := by
            rw [← hstep]
            exact hT
          have hq' : QInv (MinPQ.insert m rest) := QInv_step hq2
          have hlen2 : (MinPQ.insert m rest).length ≤ k := by
            rw [MinPQ.insert_length]
            simp only [List.length_cons] at hlen
            omega
          obtain ⟨pm, hpm⟩ := merge_loop_subtree (MinPQ.insert m rest).length _
            le_rfl T hT' m (MinPQ.insert_self m rest)
          have hwl : walkTo m ['0'] = some a := walkTo_merge_left a b
          have hwr : walkTo m ['1'] = some b := walkTo_merge_right a b
          have hpa : walkTo T (pm ++ ['0']) = some a := by
            rw [walkTo_append, hpm]
            simp only [Option.some_bind]
            exact hwl
          have hpb : walkTo T (pm ++ ['1']) = some b := by
            rw [walkTo_append, hpm]
            simp only [Option.some_bind]
            exact hwr
          have hchan : treeChars a ≠ [] := hneq a (List.mem_cons_self _ _)
          have hchbn : treeChars b ≠ [] :=
            hneq b (List.mem_cons_of_mem _ (List.mem_cons_self _ _))
          have hchmn : treeChars m ≠ [] := by
            rw [hm, treeChars_merge]
            intro h0
            exact hchan (List.append_eq_nil.mp h0).1
          have hybound : ∀ (z : Node) (pz : List Char), z ∈ rest →
              walkTo T pz = some z → pz.length ≤ pm.length + 1 := by
            intro z pz hzr hpz
            cases rest with
            | nil => cases hzr
            | cons C0 rest2 =>
                have hchC0 : treeChars C0 ≠ [] :=
                  hneq C0 (List.mem_cons_of_mem _ (List.mem_cons_of_mem _
                    (List.mem_cons_self _ _)))
                by_cases hc0 : C0.freq ≤ m.freq
                · have hq'eq : MinPQ.insert m (C0 :: rest2) =
                      C0 :: MinPQ.insert m rest2 := by
                    rw [MinPQ.insert, if_pos hc0]
                  rw [hq'eq] at hT' hq' hlen2
                  cases rest2 with
                  | nil =>
                      have hTeq : T = Node.mk (C0.freq + m.freq) none
                          (some C0) (some m) := by
                        have h4 : merge_loop (C0 :: MinPQ.insert m []) =
                            .ok (Node.mk (C0.freq + m.freq) none
                              (some C0) (some m)) := rfl
                        rw [h4] at hT'
                        exact (Except.ok.inj hT').symm
                      have hpm1 : walkTo T ['1'] = some m := by
                        rw [hTeq]
                        exact walkTo_merge_right C0 m
                      have hpc0 : walkTo T ['0'] = some C0 := by
                        rw [hTeq]
                        exact walkTo_merge_left C0 m
                      have hl1 : pm.length = 1 := by
                        have := walk_unique_length pm ['1'] T m hTok hTnd
                          hchmn hpm hpm1
                        simpa using this
                      rcases List.mem_singleton.mp hzr with rfl
                      have hl0 : pz.length = 1 := by
                        have := walk_unique_length pz ['0'] T z hTok hTnd
                          hchC0 hpz hpc0
                        simpa using this
                      omega
                  | cons C1 rest3 =>
                      have hchC1 : treeChars C1 ≠ [] :=
                        hneq C1 (List.mem_cons_of_mem _ (List.mem_cons_of_mem _
                          (List.mem_cons_of_mem _ (List.mem_cons_self _ _))))
                      by_cases hc1 : C1.freq ≤ m.freq
                      · have hins2 : MinPQ.insert m (C1 :: rest3) =
                            C1 :: MinPQ.insert m rest3 := by
                          rw [MinPQ.insert, if_pos hc1]
                        rw [hins2] at hT' hq' hlen2
                        set E := Node.mk (C0.freq + C1.freq) none
                          (some C0) (some C1) with hE
                        have hstep2 : merge_loop
                            (C0 :: C1 :: MinPQ.insert m rest3) =
                            merge_loop (MinPQ.insert E (MinPQ.insert m rest3)) := rfl
                        have hT'' : merge_loop
                            (MinPQ.insert E (MinPQ.insert m rest3)) = .ok T := by
                          rw [← hstep2]
                          exact hT'
                        have hq'' : QInv (MinPQ.insert E (MinPQ.insert m rest3)) :=
                          QInv_step hq'
                        have hlen4 : (MinPQ.insert E (MinPQ.insert m rest3)).length ≤ k := by
                          rw [MinPQ.insert_length, MinPQ.insert_length]
                          simp only [List.length_cons, MinPQ.insert_length] at hlen2
                          omega
                        obtain ⟨pE, hpE⟩ := merge_loop_subtree
                          (MinPQ.insert E (MinPQ.insert m rest3)).length _
                          le_rfl T hT'' E (MinPQ.insert_self E _)
                        have hpC0 : walkTo T (pE ++ ['0']) = some C0 := by
                          rw [walkTo_append, hpE]
                          simp only [Option.some_bind]
                          exact walkTo_merge_left C0 C1
                        have hpC1 : walkTo T (pE ++ ['1']) = some C1 := by
                          rw [walkTo_append, hpE]
                          simp only [Option.some_bind]
                          exact walkTo_merge_right C0 C1
                        have hsort3 : List.Pairwise (fun u v => u.freq ≤ v.freq)
                            (MinPQ.insert m rest3) :=
                          (List.pairwise_cons.mp
                            (List.pairwise_cons.mp hq'.1).2).2
                        have hmE : m.freq ≤ E.freq := by
                          have h5 : a.freq ≤ b.freq :=
                            hp1.1 b (List.mem_cons_self _ _)
                          have h6 : b.freq ≤ C0.freq :=
                            hp2.1 C0 (List.mem_cons_self _ _)
                          have h7 : b.freq ≤ C1.freq :=
                            hp2.1 C1 (List.mem_cons_of_mem _
                              (List.mem_cons_self _ _))
                          show a.freq + b.freq ≤ C0.freq + C1.freq
                          omega
                        have hbefmE : IsBefore m E
                            (MinPQ.insert E (MinPQ.insert m rest3)) :=
                          IsBefore_insert_new hsort3
                            (MinPQ.insert_self m rest3) hmE
                        have hEm := ih _ hlen4 hq'' T hT'' m E hbefmE
                          pm pE hpm hpE
                        rcases List.mem_cons.mp hzr with rfl | hzr2
                        · have := walk_unique_length pz (pE ++ ['0']) T z
                            hTok hTnd hchC0 hpz hpC0
                          simp only [List.length_append, List.length_singleton]
                            at this
                          omega
                        · rcases List.mem_cons.mp hzr2 with rfl | hzr3
                          · have := walk_unique_length pz (pE ++ ['1']) T z
                              hTok hTnd hchC1 hpz hpC1
                            simp only [List.length_append, List.length_singleton]
                              at this
                            omega
                          · have hymem : z ∈ C1 :: MinPQ.insert m rest3 :=
                              List.mem_cons_of_mem _
                                (MinPQ.insert_mem.mpr (Or.inr hzr3))
                            have hbefC0 : IsBefore C0 z
                                (C0 :: C1 :: MinPQ.insert m rest3) :=
                              Or.inl ⟨rfl, hymem⟩
                            have hb2 := ih _ hlen2 hq' T hT' C0 z hbefC0
                              (pE ++ ['0']) pz hpC0 hpz
                            simp only [List.length_append, List.length_singleton]
                              at hb2
                            omega
                      · have hins2 : MinPQ.insert m (C1 :: rest3) =
                            m :: C1 :: rest3 := by
                          rw [MinPQ.insert, if_neg hc1]
                        rw [hins2] at hT' hq' hlen2
                        set E := Node.mk (C0.freq + m.freq) none
                          (some C0) (some m) with hE
                        have hstep2 : merge_loop (C0 :: m :: C1 :: rest3) =
                            merge_loop (MinPQ.insert E (C1 :: rest3)) := rfl
                        have hT'' : merge_loop (MinPQ.insert E (C1 :: rest3)) =
                            .ok T := by
                          rw [← hstep2]
                          exact hT'
                        obtain ⟨pE, hpE⟩ := merge_loop_subtree
                          (MinPQ.insert E (C1 :: rest3)).length _
                          le_rfl T hT'' E (MinPQ.insert_self E _)
                        have hpC0 : walkTo T (pE ++ ['0']) = some C0 := by
                          rw [walkTo_append, hpE]
                          simp only [Option.some_bind]
                          exact walkTo_merge_left C0 m
                        have hpm2 : walkTo T (pE ++ ['1']) = some m := by
                          rw [walkTo_append, hpE]
                          simp only [Option.some_bind]
                          exact walkTo_merge_right C0 m
                        have hpmlen : pm.length = pE.length + 1 := by
                          have := walk_unique_length pm (pE ++ ['1']) T m
                            hTok hTnd hchmn hpm hpm2
                          simpa [List.length_append] using this
                        rcases List.mem_cons.mp hzr with rfl | hzr2
                        · have := walk_unique_length pz (pE ++ ['0']) T z
                            hTok hTnd hchC0 hpz hpC0
                          simp only [List.length_append, List.length_singleton]
                            at this
                          omega
                        · have hbefC0 : IsBefore C0 z (C0 :: m :: C1 :: rest3) :=
                            Or.inl ⟨rfl, List.mem_cons_of_mem _ hzr2⟩
                          have hb2 := ih _ hlen2 hq' T hT' C0 z hbefC0
                            (pE ++ ['0']) pz hpC0 hpz
                          simp only [List.length_append, List.length_singleton]
                            at hb2
                          omega
                · have hq'eq : MinPQ.insert m (C0 :: rest2) =
                      m :: C0 :: rest2 := by
                    rw [MinPQ.insert, if_neg hc0]
                  rw [hq'eq] at hT' hq' hlen2
                  have hbef : IsBefore m z (m :: C0 :: rest2) :=
                    Or.inl ⟨rfl, hzr⟩
                  have := ih _ hlen2 hq' T hT' m z hbef pm pz hpm hpz
                  omega
          rcases IsBefore_cons.mp hxy with ⟨rfl, hy⟩ | hxy2
          · have hxlen : px.length = pm.length + 1 := by
              have := walk_unique_length px (pm ++ ['0']) T x hTok hTnd
                hchan hpx hpa
              simpa [List.length_append] using this
            rcases List.mem_cons.mp hy with rfl | hyr
            · have hylen : py.length = pm.length + 1 := by
                have := walk_unique_length py (pm ++ ['1']) T y hTok hTnd
                  hchbn hpy hpb
                simpa [List.length_append] using this
              omega
            · have := hybound y py hyr hpy
              omega
          · rcases IsBefore_cons.mp hxy2 with ⟨rfl, hyr⟩ | hrest
            · have hxlen : px.length = pm.length + 1 := by
                have := walk_unique_length px (pm ++ ['1']) T x hTok hTnd
                  hchbn hpx hpb
                simpa [List.length_append] using this
              have := hybound y py hyr hpy
              omega
            · exact ih _ hlen2 hq' T hT' x y (IsBefore_insert hrest)
                px py hpx hpy

/-- The initial queue is sorted by frequency. -/
theorem initial_queue_sorted (src : List Char) :
    List.Pairwise (fun u v => u.freq ≤ v.freq) (initial_queue src) := by
  have haux : ∀ (l : List (Char × Nat)) (acc : List Node),
      List.Pairwise (fun u v => u.freq ≤ v.freq) acc →
      List.Pairwise (fun u v => u.freq ≤ v.freq)
        (l.foldl (fun q cf =>
          MinPQ.insert (Node.mk cf.2 (some cf.1) none none) q) acc) := by
    intro l
    induction l with
    | nil => exact fun acc h => h
    | cons cf rest ih =>
        intro acc h
        exact ih _ (MinPQ.insert_sorted h)
  exact haux (freq_table src) [] (List.Pairwise.nil)

/-- The initial queue satisfies the merge-loop invariants. -/
theorem initial_queue_QInv (src : List Char) : QInv (initial_queue src) := by
  refine ⟨initial_queue_sorted src, ?_, ?_, ?_⟩
  · intro n hn
    obtain ⟨cf, _, rfl⟩ := initial_queue_mem.mp hn
    rfl
  · intro n hn
    obtain ⟨cf, _, rfl⟩ := initial_queue_mem.mp hn
    have h1 : treeChars (Node.mk cf.2 (some cf.1) none none) = [cf.1] := by
      rw [treeChars.eq_def]
    rw [h1]
    simp
  · exact (initial_queue_chars src).nodup_iff.mpr (freq_table_keys_nodup src)

/-- C8. In the code table of a built tree, a strictly more frequent symbol
never gets a longer code than a strictly less frequent one. -/
theorem C8_more_frequent_shorter (src : List Char) (x y : Char)
    (fx fy : Nat) (T : Node) (cds : List (Char × List Char))
    (wx wy : List Char)
    (hx : (x, fx) ∈ freq_table src) (hy : (y, fy) ∈ freq_table src)
    (hlt : fy < fx)
    (hT : build_huffman_tree src = .ok T)
    (hd : build_dictionary T [] = .ok cds)
    (hwx : dictGet cds x = some wx) (hwy : dictGet cds y = some wy) :
    wx.length ≤ wy.length := by
  have hok := C7_tree_invariants src T hT
  have hnd : (treeChars T).Nodup := built_tree_chars_nodup hT
  have hT2 : merge_loop (initial_queue src) = .ok T := hT
  have hxm : Node.mk fx (some x) none none ∈ initial_queue src :=
    initial_queue_mem.mpr ⟨(x, fx), hx, rfl⟩
  have hym : Node.mk fy (some y) none none ∈ initial_queue src :=
    initial_queue_mem.mpr ⟨(y, fy), hy, rfl⟩
  have hbef : IsBefore (Node.mk fy (some y) none none)
      (Node.mk fx (some x) none none) (initial_queue src) :=
    IsBefore_of_sorted (initial_queue_sorted src) hym hxm hlt
  obtain ⟨pxq, hpx⟩ := merge_loop_subtree (initial_queue src).length _
    le_rfl T hT2 _ hxm
  obtain ⟨pyq, hpy⟩ := merge_loop_subtree (initial_queue src).length _
    le_rfl T hT2 _ hym
  have hmono := merge_loop_depth_mono (initial_queue src).length _
    le_rfl (initial_queue_QInv src) T hT2 _ _ hbef pyq pxq hpy hpx
  obtain ⟨Lx, hwalkx, hcharx⟩ := dictGet_walk hT hd hwx
  obtain ⟨Ly, hwalky, hchary⟩ := dictGet_walk hT hd hwy
  have hlx : wx.length = pxq.length :=
    walk_char_unique_length wx pxq T Lx (Node.mk fx (some x) none none) x
      hok hnd hwalkx hcharx hpx rfl
  have hly : wy.length = pyq.length :=
    walk_char_unique_length wy pyq T Ly (Node.mk fy (some y) none none) y
      hok hnd hwalky hchary hpy rfl
  omega

/-- C8 witness: in "aab" the symbol 'a' (count 2) gets a code no longer than
'b' (count 1). -/
theorem C8_more_frequent_shorter_witness :
    ('a', 2) ∈ freq_table ['a', 'a', 'b'] ∧
    ('b', 1) ∈ freq_table ['a', 'a', 'b'] ∧
    1 < 2 ∧
    build_huffman_tree ['a', 'a', 'b'] = .ok (Node.mk 3 none
      (some (Node.mk 1 (some 'b') none none))
      (some (Node.mk 2 (some 'a') none none))) ∧
    build_dictionary (Node.mk 3 none
      (some (Node.mk 1 (some 'b') none none))
      (some (Node.mk 2 (some 'a') none none))) [] =
      .ok [('b', ['0']), ('a', ['1'])] ∧
    dictGet [('b', ['0']), ('a', ['1'])] 'a' = some ['1'] ∧
    dictGet [('b', ['0']), ('a', ['1'])] 'b' = some ['0'] ∧
    (['1'] : List Char).length ≤ (['0'] : List Char).length :=
  ⟨by decide, by decide, by decide, rfl, rfl, rfl, rfl,
    C8_more_frequent_shorter ['a', 'a', 'b'] 'a' 'b' 2 1 _ _ _ _
      (by decide) (by decide) (by decide) rfl rfl rfl rfl⟩
